import Mathlib

/-!
Shallow embedding of the quantum trading engine core
(src/quantum_engine/hamiltonian_trading.py and
src/quantum_engine/gradient_optimizer.py) over the reals/complexes.

Modelling conventions:
* Python floats are modelled as real numbers; numpy complex matrices as
  `Matrix (Fin (2 ^ n)) (Fin (2 ^ n)) ℂ`.
* Fallible code (assertion in TradingParameters.__post_init__, the
  ValueError of np.random.normal on a negative scale, the norm check in
  _validate_hamiltonian, the normalization check in update_quantum_state)
  is modelled with `Except String`.
* The two uses of the global random source inside hamiltonian_operator
  (the Gaussian draw for the noise term and the random site of the noise
  operator) are passed in explicitly as a `Rand` value.
* scipy.integrate.quad is modelled by the exact interval integral; the
  possibility that quad raises is modelled by an explicit `quadFail`
  flag, matching the try/except around _compute_softplus_integral.
-/

open scoped Classical
open Matrix

namespace V4

/-! ## Constants (hamiltonian_trading.py lines 32-45, gradient_optimizer.py lines 38-43) -/

def QUANTUM_PRECISION_TOLERANCE : ℝ := 1e-15

def INTEGRATION_TOLERANCE : ℝ := 1e-12

def MAX_HAMILTONIAN_NORM : ℝ := 1e10

def MIN_PARAM_VALUE : ℝ := 1e-10

def MAX_NOISE_AMPLITUDE : ℝ := 1.0

def GRADIENT_CLIP_THRESHOLD : ℝ := 10.0

def CONVERGENCE_TOLERANCE : ℝ := 1e-6

def MIN_LEARNING_RATE : ℝ := 1e-6

/-! ## TradingParameters (hamiltonian_trading.py lines 56-102) -/

/-- The dataclass TradingParameters: per-pair arrays plus scalar parameters. -/
structure TradingParameters where
  n_pairs : ℕ
  amplitude : List ℝ
  frequency : List ℝ
  phase : List ℝ
  decay : List ℝ
  decay_rate : List ℝ
  a : ℝ
  b : ℝ
  x0 : ℝ
  alpha_0 : ℝ
  alpha_1 : ℝ
  alpha_2 : ℝ
  tau : ℝ
  eta : ℝ
  gamma : ℝ
  sigma : ℝ
  beta : ℝ

/-- The conjunction of the assertions run by TradingParameters.__post_init__
(lines 89-102): positive pair count, array-length agreement, minimum values
for amplitude, frequency and decay_rate entries, and the noise-amplitude
bound. -/
def tpValid (p : TradingParameters) : Prop :=
  0 < p.n_pairs ∧
  p.amplitude.length = p.n_pairs ∧
  p.frequency.length = p.n_pairs ∧
  p.phase.length = p.n_pairs ∧
  p.decay.length = p.n_pairs ∧
  p.decay_rate.length = p.n_pairs ∧
  (∀ x ∈ p.amplitude, MIN_PARAM_VALUE ≤ x) ∧
  (∀ x ∈ p.frequency, MIN_PARAM_VALUE ≤ x) ∧
  (∀ x ∈ p.decay_rate, MIN_PARAM_VALUE ≤ x) ∧
  |p.sigma| ≤ MAX_NOISE_AMPLITUDE

/-- Constructing a TradingParameters value: __post_init__ runs the
assertions on the freshly built object and raises (here: `.error`) if any
fails.  The individual assertion messages are collapsed into one. -/
noncomputable def mkParams (n_pairs : ℕ) (amplitude frequency phase decay decay_rate : List ℝ)
    (a b x0 alpha_0 alpha_1 alpha_2 tau eta gamma sigma beta : ℝ) :
    Except String TradingParameters :=
  let p : TradingParameters :=
    ⟨n_pairs, amplitude, frequency, phase, decay, decay_rate,
      a, b, x0, alpha_0, alpha_1, alpha_2, tau, eta, gamma, sigma, beta⟩
  if tpValid p then .ok p else .error "parameter validation failed"

/-- Rebuild a parameter object from the (copied) fields of an existing one,
as the first half of _perturb_param / _perturb_scalar_param
(gradient_optimizer.py lines 302-366) does; __post_init__ runs again on the
copy. -/
noncomputable def copyParams (p : TradingParameters) : Except String TradingParameters :=
  mkParams p.n_pairs p.amplitude p.frequency p.phase p.decay p.decay_rate
    p.a p.b p.x0 p.alpha_0 p.alpha_1 p.alpha_2 p.tau p.eta p.gamma p.sigma p.beta

lemma copyParams_of_valid {p : TradingParameters} (h : tpValid p) :
    copyParams p = .ok p := by
  simp only [copyParams, mkParams, if_pos h]

/-- Names of the five array-valued parameters, as accepted by
_perturb_param via getattr. -/
inductive ArrayField
  | amplitude
  | frequency
  | phase
  | decay
  | decay_rate

/-- Names of the scalar parameters, as accepted by _perturb_scalar_param
via getattr/setattr. -/
inductive ScalarField
  | a
  | b
  | x0
  | alpha_0
  | alpha_1
  | alpha_2
  | tau
  | eta
  | gamma
  | sigma
  | beta

/-- The in-place mutation performed after the copy by _perturb_param:
getattr(new_params, param_name)[index] += delta.  (List.set is a no-op out
of range; _perturb_param is only called with an in-range index.) -/
def applyArrayPerturb (p : TradingParameters) (f : ArrayField) (i : ℕ) (delta : ℝ) :
    TradingParameters :=
  match f with
  | .amplitude => { p with amplitude := p.amplitude.set i (p.amplitude.getD i 0 + delta) }
  | .frequency => { p with frequency := p.frequency.set i (p.frequency.getD i 0 + delta) }
  | .phase => { p with phase := p.phase.set i (p.phase.getD i 0 + delta) }
  | .decay => { p with decay := p.decay.set i (p.decay.getD i 0 + delta) }
  | .decay_rate => { p with decay_rate := p.decay_rate.set i (p.decay_rate.getD i 0 + delta) }

/-- The setattr performed after the copy by _perturb_scalar_param:
setattr(new_params, param_name, current_value + delta). -/
def applyScalarPerturb (p : TradingParameters) (f : ScalarField) (delta : ℝ) :
    TradingParameters :=
  match f with
  | .a => { p with a := p.a + delta }
  | .b => { p with b := p.b + delta }
  | .x0 => { p with x0 := p.x0 + delta }
  | .alpha_0 => { p with alpha_0 := p.alpha_0 + delta }
  | .alpha_1 => { p with alpha_1 := p.alpha_1 + delta }
  | .alpha_2 => { p with alpha_2 := p.alpha_2 + delta }
  | .tau => { p with tau := p.tau + delta }
  | .eta => { p with eta := p.eta + delta }
  | .gamma => { p with gamma := p.gamma + delta }
  | .sigma => { p with sigma := p.sigma + delta }
  | .beta => { p with beta := p.beta + delta }

/-- QuantumGradientOptimizer._perturb_param (gradient_optimizer.py lines
302-333): deep-copy construction (running validation on the copied values)
followed by the index mutation, which happens after __post_init__ has
already run. -/
noncomputable def perturb_param (p : TradingParameters) (f : ArrayField) (i : ℕ) (delta : ℝ) :
    Except String TradingParameters :=
  (copyParams p).map (fun q => applyArrayPerturb q f i delta)

/-- QuantumGradientOptimizer._perturb_scalar_param (lines 335-366). -/
noncomputable def perturb_scalar_param (p : TradingParameters) (f : ScalarField) (delta : ℝ) :
    Except String TradingParameters :=
  (copyParams p).map (fun q => applyScalarPerturb q f delta)

lemma perturb_param_of_valid {p : TradingParameters} (h : tpValid p)
    (f : ArrayField) (i : ℕ) (delta : ℝ) :
    perturb_param p f i delta = .ok (applyArrayPerturb p f i delta) := by
  simp [perturb_param, copyParams_of_valid h, Except.map]

lemma perturb_scalar_param_of_valid {p : TradingParameters} (h : tpValid p)
    (f : ScalarField) (delta : ℝ) :
    perturb_scalar_param p f delta = .ok (applyScalarPerturb p f delta) := by
  simp [perturb_scalar_param, copyParams_of_valid h, Except.map]

/-! ## Numerically stable nonlinearities (hamiltonian_trading.py lines 280-313) -/

/-- QuantumTradingHamiltonian._softplus. -/
noncomputable def softplus (x : ℝ) : ℝ :=
  if x > 20 then x
  else if x < -20 then Real.exp x
  else Real.log (1 + Real.exp x)

/-- QuantumTradingHamiltonian._sigmoid. -/
noncomputable def sigmoid (x : ℝ) : ℝ :=
  if x ≥ 0 then 1 / (1 + Real.exp (-x))
  else Real.exp x / (1 + Real.exp x)

/-! ## Gradient dictionary and clipping (gradient_optimizer.py lines 368-393) -/

/-- The gradient dictionary built by compute_gradients: one entry per
parameter name, arrays for the per-pair parameters and scalars for the
rest. -/
structure Gradients where
  amplitude : List ℝ
  frequency : List ℝ
  phase : List ℝ
  decay : List ℝ
  decay_rate : List ℝ
  a : ℝ
  b : ℝ
  x0 : ℝ
  alpha_0 : ℝ
  alpha_1 : ℝ
  alpha_2 : ℝ
  tau : ℝ
  eta : ℝ
  gamma : ℝ
  sigma : ℝ
  beta : ℝ

/-- Sum of squared entries of a list, np.sum(grad**2). -/
def sumSqList (l : List ℝ) : ℝ := (l.map (fun x => x ^ 2)).sum

/-- The accumulation loop of _clip_gradients: global_norm += sum of squares
of every gradient component, array entries counted individually. -/
def gradSumSq (g : Gradients) : ℝ :=
  sumSqList g.amplitude + sumSqList g.frequency + sumSqList g.phase +
    sumSqList g.decay + sumSqList g.decay_rate +
    g.a ^ 2 + g.b ^ 2 + g.x0 ^ 2 + g.alpha_0 ^ 2 + g.alpha_1 ^ 2 + g.alpha_2 ^ 2 +
    g.tau ^ 2 + g.eta ^ 2 + g.gamma ^ 2 + g.sigma ^ 2 + g.beta ^ 2

/-- global_norm = np.sqrt(global_norm). -/
noncomputable def gradGlobalNorm (g : Gradients) : ℝ := Real.sqrt (gradSumSq g)

/-- gradients[key] *= scale, applied to every key. -/
def scaleGradients (s : ℝ) (g : Gradients) : Gradients where
  amplitude := g.amplitude.map (fun x => x * s)
  frequency := g.frequency.map (fun x => x * s)
  phase := g.phase.map (fun x => x * s)
  decay := g.decay.map (fun x => x * s)
  decay_rate := g.decay_rate.map (fun x => x * s)
  a := g.a * s
  b := g.b * s
  x0 := g.x0 * s
  alpha_0 := g.alpha_0 * s
  alpha_1 := g.alpha_1 * s
  alpha_2 := g.alpha_2 * s
  tau := g.tau * s
  eta := g.eta * s
  gamma := g.gamma * s
  sigma := g.sigma * s
  beta := g.beta * s

/-- QuantumGradientOptimizer._clip_gradients (lines 368-393): global-norm
clipping with threshold 10.0. -/
noncomputable def clip_gradients (g : Gradients) : Gradients :=
  if gradGlobalNorm g > GRADIENT_CLIP_THRESHOLD then
    scaleGradients (GRADIENT_CLIP_THRESHOLD / gradGlobalNorm g) g
  else g

lemma sumSqList_nonneg (l : List ℝ) : 0 ≤ sumSqList l := by
  induction l with
  | nil => simp [sumSqList]
  | cons x xs ih =>
    simp only [sumSqList, List.map_cons, List.sum_cons]
    have := sq_nonneg x
    simp only [sumSqList] at ih
    nlinarith

lemma gradSumSq_nonneg (g : Gradients) : 0 ≤ gradSumSq g := by
  unfold gradSumSq
  have h1 := sumSqList_nonneg g.amplitude
  have h2 := sumSqList_nonneg g.frequency
  have h3 := sumSqList_nonneg g.phase
  have h4 := sumSqList_nonneg g.decay
  have h5 := sumSqList_nonneg g.decay_rate
  positivity

lemma sumSqList_map_mul (l : List ℝ) (s : ℝ) :
    sumSqList (l.map (fun x => x * s)) = sumSqList l * s ^ 2 := by
  induction l with
  | nil => simp [sumSqList]
  | cons x xs ih =>
    simp only [sumSqList, List.map_cons, List.sum_cons] at ih ⊢
    ring_nf
    ring_nf at ih
    rw [ih]
    ring

lemma gradSumSq_scale (g : Gradients) (s : ℝ) :
    gradSumSq (scaleGradients s g) = gradSumSq g * s ^ 2 := by
  simp only [gradSumSq, scaleGradients, sumSqList_map_mul]
  ring

lemma gradGlobalNorm_scale (g : Gradients) (s : ℝ) (hs : 0 ≤ s) :
    gradGlobalNorm (scaleGradients s g) = gradGlobalNorm g * s := by
  unfold gradGlobalNorm
  rw [gradSumSq_scale, Real.sqrt_mul (gradSumSq_nonneg g), Real.sqrt_sq hs]

/-! ## Pauli-basis operator construction (hamiltonian_trading.py lines 376-457)

np.kron of an accumulated p times p matrix with a 2 times 2 matrix, written
entrywise: np.kron(A, B)[2 i1 + i2, 2 j1 + j2] = A[i1, j1] * B[i2, j2],
i.e. entry (r, c) is A[r / 2, c / 2] * B[r mod 2, c mod 2]. -/

/-- The lexicographic split of Fin (p * 2) into quotient and remainder by
2, inverse to (a, b) goes to 2 a + b. -/
def finDivMod (p : ℕ) : Fin (p * 2) ≃ Fin p × Fin 2 where
  toFun m := (⟨m.val / 2, (Nat.div_lt_iff_lt_mul (by norm_num)).mpr m.isLt⟩,
    ⟨m.val % 2, Nat.mod_lt _ (by norm_num)⟩)
  invFun x := ⟨x.1.val * 2 + x.2.val, by
    have h1 := x.1.isLt
    have h2 := x.2.isLt
    omega⟩
  left_inv m := by
    apply Fin.ext
    simp only
    omega
  right_inv x := by
    have h2 := x.2.isLt
    apply Prod.ext <;> apply Fin.ext <;> simp only <;> omega

def kron2 {p : ℕ} (A : Matrix (Fin p) (Fin p) ℂ) (B : Matrix (Fin 2) (Fin 2) ℂ) :
    Matrix (Fin (p * 2)) (Fin (p * 2)) ℂ :=
  fun r c =>
    A (finDivMod p r).1 (finDivMod p c).1 * B (finDivMod p r).2 (finDivMod p c).2

/-- QuantumTradingHamiltonian._tensor_product_operator (lines 404-427):
result = eye(1); for i in range(k): result = kron(result, single_op if i ==
qubit else eye(2)).  The reindex transports along 2 ^ k * 2 = 2 ^ (k + 1),
matching the final reshape to (hilbert_dim, hilbert_dim). -/
def tensor_product_operator (single_op : Matrix (Fin 2) (Fin 2) ℂ) (qubit : ℕ) :
    (k : ℕ) → Matrix (Fin (2 ^ k)) (Fin (2 ^ k)) ℂ
  | 0 => 1
  | k + 1 =>
    Matrix.reindex (finCongr (pow_succ 2 k).symm) (finCongr (pow_succ 2 k).symm)
      (kron2 (tensor_product_operator single_op qubit k) (if k = qubit then single_op else 1))

/-- sigma_x = [[0, 1], [1, 0]] (line 396). -/
def pauliX : Matrix (Fin 2) (Fin 2) ℂ :=
  fun i j => if i.val = 0 then (if j.val = 0 then 0 else 1) else (if j.val = 0 then 1 else 0)

/-- sigma_z = [[1, 0], [0, -1]] (line 401). -/
def pauliZ : Matrix (Fin 2) (Fin 2) ℂ :=
  fun i j => if i.val = 0 then (if j.val = 0 then 1 else 0) else (if j.val = 0 then 0 else -1)

/-- _get_pauli_x / _construct_pauli_x for an engine with n qubits.  The
cache (lines 380-385) is pure memoisation of this construction. -/
def get_pauli_x (n : ℕ) (qubit : ℕ) : Matrix (Fin (2 ^ n)) (Fin (2 ^ n)) ℂ :=
  tensor_product_operator pauliX qubit n

/-- _get_pauli_z / _construct_pauli_z. -/
def get_pauli_z (n : ℕ) (qubit : ℕ) : Matrix (Fin (2 ^ n)) (Fin (2 ^ n)) ℂ :=
  tensor_product_operator pauliZ qubit n

/-- _get_trading_operator (lines 429-438): alternate X and Z on qubit
(pair_index mod n_qubits). -/
def get_trading_operator (n : ℕ) (pair_index : ℕ) : Matrix (Fin (2 ^ n)) (Fin (2 ^ n)) ℂ :=
  if pair_index % 2 = 0 then get_pauli_x n (pair_index % n) else get_pauli_z n (pair_index % n)

/-- _get_integral_operator (lines 440-442): sum of X over all qubits. -/
noncomputable def get_integral_operator (n : ℕ) : Matrix (Fin (2 ^ n)) (Fin (2 ^ n)) ℂ :=
  ∑ i ∈ Finset.range n, get_pauli_x n i

/-- _get_time_operator (lines 444-446): sum of Z over all qubits. -/
noncomputable def get_time_operator (n : ℕ) : Matrix (Fin (2 ^ n)) (Fin (2 ^ n)) ℂ :=
  ∑ i ∈ Finset.range n, get_pauli_z n i

/-- _get_regime_operator (lines 448-453): sum of X_i X_(i+1) over adjacent
pairs. -/
noncomputable def get_regime_operator (n : ℕ) : Matrix (Fin (2 ^ n)) (Fin (2 ^ n)) ℂ :=
  ∑ i ∈ Finset.range (n - 1), get_pauli_x n i * get_pauli_x n (i + 1)

/-- _get_noise_operator (lines 455-457): Z at a random qubit; the random
site is passed in explicitly. -/
def get_noise_operator (n : ℕ) (site : ℕ) : Matrix (Fin (2 ^ n)) (Fin (2 ^ n)) ℂ :=
  get_pauli_z n site

/-! ### Hermiticity and commutation of the basis operators -/

lemma kron2_conjTranspose {p : ℕ} (A : Matrix (Fin p) (Fin p) ℂ)
    (B : Matrix (Fin 2) (Fin 2) ℂ) : (kron2 A B)ᴴ = kron2 Aᴴ Bᴴ := by
  ext r c
  simp [kron2, Matrix.conjTranspose_apply, StarMul.star_mul, mul_comm]

lemma pauliX_conjTranspose : pauliXᴴ = pauliX := by
  ext i j
  simp only [Matrix.conjTranspose_apply, pauliX]
  by_cases hi : i.val = 0 <;> by_cases hj : j.val = 0 <;> simp [hi, hj]

lemma pauliZ_conjTranspose : pauliZᴴ = pauliZ := by
  ext i j
  by_cases hi : i.val = 0 <;> by_cases hj : j.val = 0 <;>
    simp [Matrix.conjTranspose_apply, pauliZ, hi, hj]

lemma tensor_product_operator_conjTranspose (σ : Matrix (Fin 2) (Fin 2) ℂ)
    (hσ : σᴴ = σ) (qubit : ℕ) : ∀ k, (tensor_product_operator σ qubit k)ᴴ =
      tensor_product_operator σ qubit k := by
  intro k
  induction k with
  | zero => simp [tensor_product_operator]
  | succ k ih =>
    simp only [tensor_product_operator, Matrix.reindex_apply]
    rw [Matrix.conjTranspose_submatrix, kron2_conjTranspose, ih]
    by_cases hq : k = qubit
    · rw [if_pos hq, hσ]
    · rw [if_neg hq, Matrix.conjTranspose_one]

lemma kron2_mul {p : ℕ} (A A' : Matrix (Fin p) (Fin p) ℂ)
    (B B' : Matrix (Fin 2) (Fin 2) ℂ) :
    kron2 A B * kron2 A' B' = kron2 (A * A') (B * B') := by
  ext r c
  rw [Matrix.mul_apply]
  rw [← Equiv.sum_comp (finDivMod p).symm
    (fun m => kron2 A B r m * kron2 A' B' m c)]
  have key : ∀ x : Fin p × Fin 2,
      kron2 A B r ((finDivMod p).symm x) * kron2 A' B' ((finDivMod p).symm x) c =
        (A (finDivMod p r).1 x.1 * A' x.1 (finDivMod p c).1) *
        (B (finDivMod p r).2 x.2 * B' x.2 (finDivMod p c).2) := by
    intro x
    simp only [kron2, Equiv.apply_symm_apply]
    ring
  rw [Finset.sum_congr rfl (fun x _ => key x)]
  rw [Fintype.sum_prod_type]
  simp only [← Finset.sum_mul, ← Finset.mul_sum]
  simp [kron2, Matrix.mul_apply, Finset.sum_mul]

lemma reindex_mul {m n : ℕ} (e : Fin m ≃ Fin n) (A B : Matrix (Fin m) (Fin m) ℂ) :
    Matrix.reindex e e A * Matrix.reindex e e B = Matrix.reindex e e (A * B) := by
  simp only [Matrix.reindex_apply]
  rw [Matrix.submatrix_mul_equiv]

lemma tensor_product_operator_comm (σ τ : Matrix (Fin 2) (Fin 2) ℂ)
    (q q' : ℕ) (hqq : q ≠ q') : ∀ k,
    tensor_product_operator σ q k * tensor_product_operator τ q' k =
      tensor_product_operator τ q' k * tensor_product_operator σ q k := by
  intro k
  induction k with
  | zero => simp [tensor_product_operator]
  | succ k ih =>
    simp only [tensor_product_operator]
    rw [reindex_mul, reindex_mul, kron2_mul, kron2_mul, ih]
    by_cases hq : k = q
    · rw [if_pos hq, if_neg (by omega : ¬ k = q'), mul_one, one_mul]
    · by_cases hq' : k = q'
      · rw [if_neg hq, if_pos hq', mul_one, one_mul]
      · rw [if_neg hq, if_neg hq', mul_one]

lemma get_pauli_x_conjTranspose (n q : ℕ) : (get_pauli_x n q)ᴴ = get_pauli_x n q :=
  tensor_product_operator_conjTranspose pauliX pauliX_conjTranspose q n

lemma get_pauli_z_conjTranspose (n q : ℕ) : (get_pauli_z n q)ᴴ = get_pauli_z n q :=
  tensor_product_operator_conjTranspose pauliZ pauliZ_conjTranspose q n

lemma get_trading_operator_conjTranspose (n i : ℕ) :
    (get_trading_operator n i)ᴴ = get_trading_operator n i := by
  unfold get_trading_operator
  by_cases h : i % 2 = 0
  · rw [if_pos h]
    exact get_pauli_x_conjTranspose n (i % n)
  · rw [if_neg h]
    exact get_pauli_z_conjTranspose n (i % n)

lemma get_integral_operator_conjTranspose (n : ℕ) :
    (get_integral_operator n)ᴴ = get_integral_operator n := by
  unfold get_integral_operator
  rw [Matrix.conjTranspose_sum]
  exact Finset.sum_congr rfl (fun i _ => get_pauli_x_conjTranspose n i)

lemma get_time_operator_conjTranspose (n : ℕ) :
    (get_time_operator n)ᴴ = get_time_operator n := by
  unfold get_time_operator
  rw [Matrix.conjTranspose_sum]
  exact Finset.sum_congr rfl (fun i _ => get_pauli_z_conjTranspose n i)

lemma get_regime_operator_conjTranspose (n : ℕ) :
    (get_regime_operator n)ᴴ = get_regime_operator n := by
  unfold get_regime_operator
  rw [Matrix.conjTranspose_sum]
  refine Finset.sum_congr rfl (fun i _ => ?_)
  rw [Matrix.conjTranspose_mul, get_pauli_x_conjTranspose, get_pauli_x_conjTranspose]
  exact (tensor_product_operator_comm pauliX pauliX (i + 1) i (by omega) n)

lemma get_noise_operator_conjTranspose (n site : ℕ) :
    (get_noise_operator n site)ᴴ = get_noise_operator n site :=
  get_pauli_z_conjTranspose n site

/-! ## Engine state and Hamiltonian assembly (hamiltonian_trading.py lines 120-274) -/

/-- The two consumptions of the global random source inside one
hamiltonian_operator call: the np.random.normal(0, scaling) draw (as a
function of the requested standard deviation) and the np.random.randint
site of the noise operator. -/
structure Rand where
  draw : ℝ → ℝ
  site : ℕ

/-- Mutable state of a QuantumTradingHamiltonian instance: the current
quantum state and the state history.  (The Pauli cache is pure
memoisation of tensor_product_operator and has no semantic content.) -/
structure EngineState (n : ℕ) where
  quantum_state : Fin (2 ^ n) → ℂ
  state_history : List (Fin (2 ^ n) → ℂ)

/-- The index-0 basis vector |0> used to initialise the engine (lines
160-161). -/
def basis0 (n : ℕ) : Fin (2 ^ n) → ℂ := fun i => if i.val = 0 then 1 else 0

/-- Freshly constructed engine: state |0>, empty history. -/
def initEngine (n : ℕ) : EngineState n := ⟨basis0 n, []⟩

/-- np.vdot: conjugate the first argument, then the scalar product. -/
noncomputable def vdot {d : ℕ} (x y : Fin d → ℂ) : ℂ := ∑ i, star (x i) * y i

/-- _get_previous_state_norm (lines 463-476): np.abs(np.vdot(last, last))
of the most recent history entry, 0 when the history is empty. -/
noncomputable def get_previous_state_norm {n : ℕ} (E : EngineState n) : ℝ :=
  match E.state_history.getLast? with
  | none => 0
  | some s => Complex.abs (vdot s s)

/-- The standard deviation passed to np.random.normal by the noise term
(lines 257-259): 1 + beta * (previous squared norm).  np.random.normal
raises ValueError when this scale is negative, a fatal error the outer
try/except of hamiltonian_operator re-raises; beta is unconstrained by
__post_init__, so the negative case is reachable for valid parameters
with beta < -1 once the state history is nonempty. -/
noncomputable def noiseScale {n : ℕ} (p : TradingParameters) (E : EngineState n) : ℝ :=
  1.0 + p.beta * get_previous_state_norm E

/-- _f_function (lines 362-367): constant 1. -/
def f_function (_ : ℝ) : ℝ := 1.0

/-- _g_prime (lines 369-374): constant 1. -/
def g_prime (_ : ℝ) : ℝ := 1.0

/-- The integrand of _compute_softplus_integral (lines 335-341). -/
noncomputable def softplusIntegrand (p : TradingParameters) (x : ℝ) : ℝ :=
  softplus (p.a * (x - p.x0) ^ 2 + p.b) * f_function x * g_prime x

/-- _compute_softplus_integral (lines 315-360), modelling the quad call by
the exact definite integral from 0 to t. -/
noncomputable def compute_softplus_integral (t : ℝ) (p : TradingParameters) : ℝ :=
  ∫ x in (0 : ℝ)..t, softplusIntegrand p x

/-- The integral value used by hamiltonian_operator: the quadrature result
on success, or — when quad raised (modelled by the quadFail flag) — the
except-branch fallback softplus(a (t - x0)^2 + b) of lines 225-229. -/
noncomputable def integral_value (quadFail : Bool) (t : ℝ) (p : TradingParameters) : ℝ :=
  if quadFail then softplus (p.a * (t - p.x0) ^ 2 + p.b)
  else compute_softplus_integral t p

/-- The five-term sum H accumulated by hamiltonian_operator (lines
194-263), with the integral term value iv passed in.  rand.draw gives the
value the np.random.normal draw would return; the draw only happens (and
this matrix is only assembled) when the noise scale is nonnegative — the
guard lives in hamiltonian_operator, which raises before assembly
completes when noiseScale p E < 0. -/
noncomputable def assembleH (n : ℕ) (E : EngineState n) (rand : Rand) (t : ℝ)
    (p : TradingParameters) (iv : ℝ) : Matrix (Fin (2 ^ n)) (Fin (2 ^ n)) ℂ :=
  (∑ i ∈ Finset.range p.n_pairs,
    (p.amplitude.getD i 0 * Real.sin (p.frequency.getD i 0 * t + p.phase.getD i 0) +
      p.decay.getD i 0 * Real.exp (-p.decay_rate.getD i 0 * t)) • get_trading_operator n i) +
  iv • get_integral_operator n +
  (p.alpha_0 * t ^ 2 + p.alpha_1 * Real.sin (2 * Real.pi * t) +
    p.alpha_2 * Real.log (1 + t)) • get_time_operator n +
  (if t ≥ p.tau then p.eta * 1.0 * sigmoid (p.gamma * 1.0) else 0) • get_regime_operator n +
  (p.sigma * rand.draw (noiseScale p E)) • get_noise_operator n rand.site

/-- Frobenius norm, the default of np.linalg.norm on a matrix. -/
noncomputable def frobNorm {d : ℕ} (M : Matrix (Fin d) (Fin d) ℂ) : ℝ :=
  Real.sqrt (∑ i, ∑ j, Complex.normSq (M i j))

/-- np.allclose(A, B, atol=QUANTUM_PRECISION_TOLERANCE) with numpy's
default rtol = 1e-5: entrywise closeness check used for Hermiticity. -/
def hermitianClose {d : ℕ} (A B : Matrix (Fin d) (Fin d) ℂ) : Prop :=
  ∀ i j, Complex.abs (A i j - B i j) ≤
    QUANTUM_PRECISION_TOLERANCE + 1e-5 * Complex.abs (B i j)

/-- _validate_hamiltonian (lines 504-526): the symmetrisation rebinds only
the local H (here H2); the norm check raises ValueError when the norm
exceeds the bound.  The function returns nothing. -/
noncomputable def validate_hamiltonian {d : ℕ} (H : Matrix (Fin d) (Fin d) ℂ) :
    Except String Unit :=
  let H2 := if ¬ hermitianClose H Hᴴ then ((1 : ℝ) / 2) • (H + Hᴴ) else H
  if frobNorm H2 > MAX_HAMILTONIAN_NORM then .error "Hamiltonian norm too large"
  else .ok ()

/-- QuantumTradingHamiltonian.hamiltonian_operator (lines 176-274): the
np.random.normal call of the noise term (line 259) raises ValueError when
its scale 1 + beta * (previous squared norm) is negative; otherwise the
five-term sum is assembled, validated, and the assembled matrix H itself
is returned (the one passed to validation, not the locally symmetrised
copy).  The outer try/except re-raises, so both failures propagate
unchanged. -/
noncomputable def hamiltonian_operator (n : ℕ) (E : EngineState n) (rand : Rand)
    (quadFail : Bool) (t : ℝ) (p : TradingParameters) :
    Except String (Matrix (Fin (2 ^ n)) (Fin (2 ^ n)) ℂ) :=
  if noiseScale p E < 0 then .error "scale < 0"
  else
    let H := assembleH n E rand t p (integral_value quadFail t p)
    match validate_hamiltonian H with
    | .ok _ => .ok H
    | .error e => .error e

/-! ### The assembled operator is exactly Hermitian -/

lemma assembleH_conjTranspose (n : ℕ) (E : EngineState n) (rand : Rand) (t : ℝ)
    (p : TradingParameters) (iv : ℝ) :
    (assembleH n E rand t p iv)ᴴ = assembleH n E rand t p iv := by
  unfold assembleH
  simp only [Matrix.conjTranspose_add, Matrix.conjTranspose_sum, Matrix.conjTranspose_smul,
    star_trivial, get_noise_operator_conjTranspose, get_regime_operator_conjTranspose,
    get_time_operator_conjTranspose, get_integral_operator_conjTranspose,
    get_trading_operator_conjTranspose]

lemma hermitianClose_self {d : ℕ} (H : Matrix (Fin d) (Fin d) ℂ) (h : Hᴴ = H) :
    hermitianClose H Hᴴ := by
  intro i j
  rw [h, sub_self]
  simp only [map_zero]
  have h0 := Complex.abs.nonneg (H i j)
  have h15 : (0 : ℝ) < QUANTUM_PRECISION_TOLERANCE := by
    norm_num [QUANTUM_PRECISION_TOLERANCE]
  nlinarith

/-- Evaluation lemma: hamiltonian_operator fails on a negative noise scale
(the np.random.normal ValueError), else on the norm bound of the assembled
matrix, else returns the assembled matrix itself; the Hermiticity branch
of validation never fires and the symmetrised local copy is discarded. -/
lemma hamiltonian_operator_eq (n : ℕ) (E : EngineState n) (rand : Rand)
    (quadFail : Bool) (t : ℝ) (p : TradingParameters) :
    hamiltonian_operator n E rand quadFail t p =
      if noiseScale p E < 0 then .error "scale < 0"
      else if frobNorm (assembleH n E rand t p (integral_value quadFail t p)) >
          MAX_HAMILTONIAN_NORM then
        .error "Hamiltonian norm too large"
      else .ok (assembleH n E rand t p (integral_value quadFail t p)) := by
  have hherm := hermitianClose_self _ (assembleH_conjTranspose n E rand t p
    (integral_value quadFail t p))
  simp only [hamiltonian_operator, validate_hamiltonian]
  rw [if_neg (not_not_intro hherm)]
  by_cases hns : noiseScale p E < 0
  · rw [if_pos hns, if_pos hns]
  · rw [if_neg hns, if_neg hns]
    by_cases hn : frobNorm (assembleH n E rand t p (integral_value quadFail t p)) >
        MAX_HAMILTONIAN_NORM
    · rw [if_pos hn, if_pos hn]
    · rw [if_neg hn, if_neg hn]

/-! ## State management and time evolution (hamiltonian_trading.py lines 478-573) -/

instance (n : ℕ) : NeZero (2 ^ n) := ⟨pow_ne_zero n (by norm_num)⟩

/-- update_quantum_state (lines 478-498): validate normalization first
(raising leaves both fields untouched), then replace the state and append
a copy to the history, dropping the oldest entry past 1000. -/
noncomputable def update_quantum_state {n : ℕ} (E : EngineState n)
    (new_state : Fin (2 ^ n) → ℂ) : Except String (EngineState n) :=
  let norm := Complex.abs (vdot new_state new_state)
  if |norm - 1.0| > QUANTUM_PRECISION_TOLERANCE then .error "State not normalized"
  else
    let hist := E.state_history ++ [new_state]
    .ok ⟨new_state, if hist.length > 1000 then hist.tail else hist⟩

/-- One iteration of the evolve_state loop (lines 550-567): first-order
update U = I - i H dt, renormalization by np.sqrt(vdot(s, s)) (that value
is exactly real and nonnegative, so the complex square root is the real
one), then update_quantum_state. -/
noncomputable def evolve_step {n : ℕ} (p : TradingParameters) (rand : Rand)
    (quadFail : Bool) (dt : ℝ) (step : ℕ) (E : EngineState n) :
    Except String (EngineState n) :=
  (hamiltonian_operator n E rand quadFail ((step : ℝ) * dt) p).bind fun H =>
    let U := (1 : Matrix (Fin (2 ^ n)) (Fin (2 ^ n)) ℂ) - (Complex.I * (dt : ℂ)) • H
    let ns := U.mulVec E.quantum_state
    update_quantum_state E (fun i => ns i / ((Real.sqrt ((vdot ns ns).re) : ℝ) : ℂ))

/-- The evolve_state loop over time_steps steps, with per-step randomness. -/
noncomputable def evolve_loop {n : ℕ} (p : TradingParameters) (rands : ℕ → Rand)
    (qf : ℕ → Bool) (dt : ℝ) : ℕ → ℕ → EngineState n → Except String (EngineState n)
  | 0, _, E => .ok E
  | fuel + 1, step, E =>
    match evolve_step p (rands step) (qf step) dt step E with
    | .error e => .error e
    | .ok E2 => evolve_loop p rands qf dt fuel (step + 1) E2

/-- evolve_state (lines 532-573). -/
noncomputable def evolve_state {n : ℕ} (p : TradingParameters) (rands : ℕ → Rand)
    (qf : ℕ → Bool) (dt : ℝ) (time_steps : ℕ) (E : EngineState n) :
    Except String (EngineState n) :=
  evolve_loop p rands qf dt time_steps 0 E

/-- calculate_trading_signal (lines 579-596): real part of the expectation
of the sum of Pauli-X operators in the current state, divided by the qubit
count. -/
noncomputable def calculate_trading_signal (n : ℕ) (E : EngineState n) : ℝ :=
  (vdot E.quantum_state
    ((∑ i ∈ Finset.range n, get_pauli_x n i).mulVec E.quantum_state)).re / n

/-! ### vdot algebra -/

/-- Sum of squared moduli of the entries: the exactly real value of
np.vdot(x, x). -/
noncomputable def normSqV {d : ℕ} (x : Fin d → ℂ) : ℝ := ∑ i, Complex.normSq (x i)

lemma normSqV_nonneg {d : ℕ} (x : Fin d → ℂ) : 0 ≤ normSqV x :=
  Finset.sum_nonneg fun i _ => Complex.normSq_nonneg (x i)

lemma vdot_self_eq {d : ℕ} (x : Fin d → ℂ) : vdot x x = ((normSqV x : ℝ) : ℂ) := by
  unfold vdot normSqV
  push_cast
  exact Finset.sum_congr rfl fun i _ => by
    rw [Complex.star_def, Complex.normSq_eq_conj_mul_self]

lemma vdot_self_re {d : ℕ} (x : Fin d → ℂ) : (vdot x x).re = normSqV x := by
  rw [vdot_self_eq, Complex.ofReal_re]

lemma abs_vdot_self {d : ℕ} (x : Fin d → ℂ) : Complex.abs (vdot x x) = normSqV x := by
  rw [vdot_self_eq, Complex.abs_ofReal, abs_of_nonneg (normSqV_nonneg x)]

lemma vdot_sub_left {d : ℕ} (x y z : Fin d → ℂ) :
    vdot (x - y) z = vdot x z - vdot y z := by
  unfold vdot
  rw [← Finset.sum_sub_distrib]
  exact Finset.sum_congr rfl fun i _ => by
    simp [Pi.sub_apply, star_sub, sub_mul]

lemma vdot_sub_right {d : ℕ} (x y z : Fin d → ℂ) :
    vdot x (y - z) = vdot x y - vdot x z := by
  unfold vdot
  rw [← Finset.sum_sub_distrib]
  exact Finset.sum_congr rfl fun i _ => by
    simp [Pi.sub_apply, mul_sub]

lemma vdot_smul_left {d : ℕ} (c : ℂ) (x y : Fin d → ℂ) :
    vdot (c • x) y = star c * vdot x y := by
  unfold vdot
  rw [Finset.mul_sum]
  exact Finset.sum_congr rfl fun i _ => by
    simp [Pi.smul_apply, StarMul.star_mul, mul_comm, mul_assoc, mul_left_comm]

lemma vdot_smul_right {d : ℕ} (c : ℂ) (x y : Fin d → ℂ) :
    vdot x (c • y) = c * vdot x y := by
  unfold vdot
  rw [Finset.mul_sum]
  exact Finset.sum_congr rfl fun i _ => by
    simp [Pi.smul_apply]
    try ring

lemma vdot_conj_symm {d : ℕ} (x y : Fin d → ℂ) : star (vdot x y) = vdot y x := by
  unfold vdot
  rw [star_sum]
  exact Finset.sum_congr rfl fun i _ => by
    simp [StarMul.star_mul]
    try ring

lemma vdot_mulVec_left {d : ℕ} (M : Matrix (Fin d) (Fin d) ℂ) (x y : Fin d → ℂ) :
    vdot (M.mulVec x) y = vdot x (Mᴴ.mulVec y) := by
  unfold vdot
  simp only [Matrix.mulVec, Matrix.dotProduct, Matrix.conjTranspose_apply, star_sum,
    StarMul.star_mul, Finset.sum_mul, Finset.mul_sum]
  rw [Finset.sum_comm]
  exact Finset.sum_congr rfl fun i _ => Finset.sum_congr rfl fun j _ => by ring

lemma evolve_vdot {d : ℕ} (H : Matrix (Fin d) (Fin d) ℂ) (hH : Hᴴ = H)
    (ψ : Fin d → ℂ) (dt : ℝ) :
    vdot (ψ - (Complex.I * (dt : ℂ)) • H.mulVec ψ)
        (ψ - (Complex.I * (dt : ℂ)) • H.mulVec ψ) =
      vdot ψ ψ + ((dt ^ 2 : ℝ) : ℂ) * vdot (H.mulVec ψ) (H.mulVec ψ) := by
  have hz : vdot (H.mulVec ψ) ψ = vdot ψ (H.mulVec ψ) := by
    rw [vdot_mulVec_left, hH]
  have hzsymm : star (vdot ψ (H.mulVec ψ)) = vdot ψ (H.mulVec ψ) := by
    rw [vdot_conj_symm, hz]
  have hstarc : star (Complex.I * (dt : ℂ)) = -(Complex.I * (dt : ℂ)) := by
    rw [StarMul.star_mul]
    simp [Complex.star_def, Complex.conj_I, Complex.conj_ofReal]
    ring
  rw [vdot_sub_left, vdot_sub_right, vdot_sub_right, vdot_smul_left, vdot_smul_right,
    vdot_smul_left, vdot_smul_right, hstarc, hz]
  have hc2 : -(Complex.I * (dt : ℂ)) * (Complex.I * (dt : ℂ)) = ((dt ^ 2 : ℝ) : ℂ) := by
    have : Complex.I * Complex.I = -1 := Complex.I_mul_I
    push_cast
    ring_nf
    rw [Complex.I_sq]
    ring
  set z := vdot ψ (H.mulVec ψ)
  set q := vdot (H.mulVec ψ) (H.mulVec ψ)
  calc vdot ψ ψ - Complex.I * (dt : ℂ) * z -
        (-(Complex.I * (dt : ℂ)) * z - -(Complex.I * (dt : ℂ)) * (Complex.I * (dt : ℂ) * q))
      = vdot ψ ψ + (-(Complex.I * (dt : ℂ)) * (Complex.I * (dt : ℂ))) * q := by ring
    _ = vdot ψ ψ + ((dt ^ 2 : ℝ) : ℂ) * q := by rw [hc2]

/-! ### Invariant preservation by one evolution step -/

lemma hamiltonian_operator_ok {n : ℕ} {E : EngineState n} {rand : Rand} {quadFail : Bool}
    {t : ℝ} {p : TradingParameters} {H : Matrix (Fin (2 ^ n)) (Fin (2 ^ n)) ℂ}
    (h : hamiltonian_operator n E rand quadFail t p = .ok H) :
    H = assembleH n E rand t p (integral_value quadFail t p) := by
  rw [hamiltonian_operator_eq] at h
  by_cases hns : noiseScale p E < 0
  · rw [if_pos hns] at h
    exact absurd h (by simp)
  · rw [if_neg hns] at h
    by_cases hn : frobNorm (assembleH n E rand t p (integral_value quadFail t p)) >
        MAX_HAMILTONIAN_NORM
    · rw [if_pos hn] at h
      exact absurd h (by simp)
    · rw [if_neg hn] at h
      exact (Except.ok.inj h).symm

lemma normSqV_normalize {d : ℕ} (ns : Fin d → ℂ) (hpos : 0 < (vdot ns ns).re) :
    normSqV (fun i => ns i / ((Real.sqrt ((vdot ns ns).re) : ℝ) : ℂ)) = 1 := by
  simp only [vdot_self_re] at hpos ⊢
  have hs : Real.sqrt (normSqV ns) * Real.sqrt (normSqV ns) = normSqV ns :=
    Real.mul_self_sqrt hpos.le
  unfold normSqV at hs hpos ⊢
  simp only [Complex.normSq_div, Complex.normSq_ofReal]
  rw [← Finset.sum_div, hs]
  exact div_self (ne_of_gt hpos)

lemma update_quantum_state_ok {n : ℕ} (E : EngineState n) (v : Fin (2 ^ n) → ℂ)
    (h : ¬ |Complex.abs (vdot v v) - 1.0| > QUANTUM_PRECISION_TOLERANCE) :
    update_quantum_state E v = .ok ⟨v,
      if (E.state_history ++ [v]).length > 1000 then (E.state_history ++ [v]).tail
      else E.state_history ++ [v]⟩ := by
  unfold update_quantum_state
  rw [if_neg h]

/-- Joint invariant: unit norm of the current state and bounded history. -/
def engineInv {n : ℕ} (E : EngineState n) : Prop :=
  normSqV E.quantum_state = 1 ∧ E.state_history.length ≤ 1000

lemma evolve_step_inv {n : ℕ} {p : TradingParameters} {rand : Rand} {qf : Bool}
    {dt : ℝ} {step : ℕ} {E E2 : EngineState n} (hinv : engineInv E)
    (hs : evolve_step p rand qf dt step E = .ok E2) : engineInv E2 := by
  obtain ⟨h1, h2⟩ := hinv
  unfold evolve_step at hs
  cases hham : hamiltonian_operator n E rand qf ((step : ℝ) * dt) p with
  | error e =>
    rw [hham] at hs
    exact absurd hs (by simp [Except.bind])
  | ok H =>
    rw [hham] at hs
    simp only [Except.bind] at hs
    have hHh : Hᴴ = H := by
      rw [hamiltonian_operator_ok hham]
      exact assembleH_conjTranspose n E rand ((step : ℝ) * dt) p
        (integral_value qf ((step : ℝ) * dt) p)
    set ψ := E.quantum_state with hψ
    have hU : ((1 : Matrix (Fin (2 ^ n)) (Fin (2 ^ n)) ℂ) -
        (Complex.I * (dt : ℂ)) • H).mulVec ψ =
        ψ - (Complex.I * (dt : ℂ)) • H.mulVec ψ := by
      rw [Matrix.sub_mulVec, Matrix.one_mulVec, Matrix.smul_mulVec_assoc]
    rw [hU] at hs
    set ns := ψ - (Complex.I * (dt : ℂ)) • H.mulVec ψ with hns
    have hvd : vdot ns ns = vdot ψ ψ + ((dt ^ 2 : ℝ) : ℂ) *
        vdot (H.mulVec ψ) (H.mulVec ψ) := evolve_vdot H hHh ψ dt
    have hre : (vdot ns ns).re = 1 + dt ^ 2 * normSqV (H.mulVec ψ) := by
      rw [hvd, vdot_self_eq ψ, vdot_self_eq (H.mulVec ψ), h1, ← Complex.ofReal_mul,
        ← Complex.ofReal_add, Complex.ofReal_re]
    have hpos : 0 < (vdot ns ns).re := by
      rw [hre]
      have := normSqV_nonneg (H.mulVec ψ)
      nlinarith [sq_nonneg dt]
    set v := fun i => ns i / ((Real.sqrt ((vdot ns ns).re) : ℝ) : ℂ) with hv
    have hnorm : normSqV v = 1 := normSqV_normalize ns hpos
    have habs : Complex.abs (vdot v v) = 1 := by rw [abs_vdot_self, hnorm]
    have hcond : ¬ |Complex.abs (vdot v v) - 1.0| > QUANTUM_PRECISION_TOLERANCE := by
      rw [habs]
      norm_num [QUANTUM_PRECISION_TOLERANCE]
    rw [update_quantum_state_ok E v hcond] at hs
    have hE2 := (Except.ok.inj hs).symm
    subst hE2
    constructor
    · exact hnorm
    · simp only
      by_cases hlen : (E.state_history ++ [v]).length > 1000
      · rw [if_pos hlen, List.length_tail, List.length_append]
        simp
        omega
      · rw [if_neg hlen]
        rw [List.length_append] at hlen ⊢
        simp at hlen ⊢
        omega

lemma evolve_loop_inv {n : ℕ} {p : TradingParameters} {rands : ℕ → Rand}
    {qf : ℕ → Bool} {dt : ℝ} :
    ∀ (fuel step : ℕ) (E E2 : EngineState n), engineInv E →
      evolve_loop p rands qf dt fuel step E = .ok E2 → engineInv E2 := by
  intro fuel
  induction fuel with
  | zero =>
    intro step E E2 hinv h
    unfold evolve_loop at h
    rwa [← Except.ok.inj h]
  | succ f ih =>
    intro step E E2 hinv h
    unfold evolve_loop at h
    cases hstep : evolve_step p (rands step) (qf step) dt step E with
    | error e =>
      rw [hstep] at h
      exact absurd h (by simp)
    | ok Emid =>
      rw [hstep] at h
      exact ih (step + 1) Emid E2 (evolve_step_inv hinv hstep) h

lemma normSqV_basis0 (n : ℕ) : normSqV (basis0 n) = 1 := by
  unfold normSqV basis0
  rw [Finset.sum_congr rfl (fun i _ => by
    rw [show Complex.normSq (if i.val = 0 then 1 else 0) =
      (if i = 0 then 1 else 0) from by
        by_cases h : i.val = 0
        · rw [if_pos h, if_pos (Fin.ext h)]
          simp
        · rw [if_neg h, if_neg (fun he => h (by rw [he]; rfl))]
          simp])]
  rw [Finset.sum_ite_eq' Finset.univ (0 : Fin (2 ^ n)) (fun _ => (1 : ℝ))]
  simp

lemma initEngine_inv (n : ℕ) : engineInv (initEngine n) := by
  constructor
  · exact normSqV_basis0 n
  · simp [initEngine]

/-! ## Optimizer configuration (gradient_optimizer.py lines 90-133) -/

/-- scheduler_type in "cosine" | "exponential" | "constant". -/
inductive SchedulerType
  | cosine
  | exponential
  | constant

/-- The constructor arguments of QuantumGradientOptimizer;
initial_learning_rate is the learning_rate field. -/
structure OptimizerConfig where
  learning_rate : ℝ
  beta1 : ℝ
  beta2 : ℝ
  epsilon : ℝ
  use_adam : Bool
  clip_gradients : Bool
  scheduler_type : SchedulerType

/-- The constructor defaults (lr=0.01, beta1=0.9, beta2=0.999, eps=1e-8,
Adam on, clipping on, cosine scheduler). -/
def defaultConfig : OptimizerConfig :=
  ⟨0.01, 0.9, 0.999, 1e-8, true, true, .cosine⟩

/-- Reduction of ok-bind for Except, used to evaluate do-blocks. -/
lemma ok_bind {α β : Type} (x : α) (f : α → Except String β) :
    (Except.ok x >>= f) = f x := rfl

/-- The same reduction for the explicit Except.bind method. -/
lemma except_bind_ok {α β : Type} (x : α) (f : α → Except String β) :
    (Except.ok x : Except String α).bind f = f x := rfl

/-! ## Gradient computation (gradient_optimizer.py lines 139-296)

compute_gradients is modelled for the case of a caller-supplied loss
function (loss_fn not None), the setting of all claims about it; the
hamiltonian argument is then never consulted. -/

/-- The finite difference step h = 1e-5 (line 168). -/
def fd_step : ℝ := 1e-5

/-- One central finite difference through an array parameter: perturb plus
and minus, evaluate the loss on each copy. -/
noncomputable def fd_array (lossFn : TradingParameters → ℝ) (p : TradingParameters)
    (f : ArrayField) (i : ℕ) : Except String ℝ := do
  let pp ← perturb_param p f i fd_step
  let pm ← perturb_param p f i (-fd_step)
  pure ((lossFn pp - lossFn pm) / (2 * fd_step))

/-- One central finite difference through a scalar parameter. -/
noncomputable def fd_scalar (lossFn : TradingParameters → ℝ) (p : TradingParameters)
    (f : ScalarField) : Except String ℝ := do
  let pp ← perturb_scalar_param p f fd_step
  let pm ← perturb_scalar_param p f (-fd_step)
  pure ((lossFn pp - lossFn pm) / (2 * fd_step))

/-- The per-index loop `for i in range(n): out[i] = ...` over a fallible
body. -/
def mapExcept (F : ℕ → Except String ℝ) : List ℕ → Except String (List ℝ)
  | [] => .ok []
  | i :: rest => do
    let x ← F i
    let xs ← mapExcept F rest
    pure (x :: xs)

/-- s = a (t - x0)^2 + b of line 240. -/
noncomputable def grad_s (p : TradingParameters) (t : ℝ) : ℝ :=
  p.a * (t - p.x0) ^ 2 + p.b

/-- sigmoid_s of line 243: the inline stabilised sigmoid. -/
noncomputable def sigmoid_s (p : TradingParameters) (t : ℝ) : ℝ :=
  if |grad_s p t| < 20 then 1 / (1 + Real.exp (-grad_s p t))
  else if grad_s p t > 0 then 1.0 else 0.0

/-- The value produced by a successful array finite difference. -/
noncomputable def fdArrayVal (lossFn : TradingParameters → ℝ) (p : TradingParameters)
    (f : ArrayField) (i : ℕ) : ℝ :=
  (lossFn (applyArrayPerturb p f i fd_step) - lossFn (applyArrayPerturb p f i (-fd_step))) /
    (2 * fd_step)

/-- The value produced by a successful scalar finite difference. -/
noncomputable def fdScalarVal (lossFn : TradingParameters → ℝ) (p : TradingParameters)
    (f : ScalarField) : ℝ :=
  (lossFn (applyScalarPerturb p f fd_step) - lossFn (applyScalarPerturb p f (-fd_step))) /
    (2 * fd_step)

/-- The pre-clipping gradient dictionary produced by compute_gradients when
every perturbation succeeds. -/
noncomputable def rawGradients (lossFn : TradingParameters → ℝ) (p : TradingParameters)
    (t : ℝ) : Gradients where
  amplitude := (List.range p.n_pairs).map (fdArrayVal lossFn p .amplitude)
  frequency := (List.range p.n_pairs).map (fdArrayVal lossFn p .frequency)
  phase := (List.range p.n_pairs).map (fun i => 0.5 *
    (p.amplitude.getD i 0 * Real.cos (p.frequency.getD i 0 * t + p.phase.getD i 0) +
      fdArrayVal lossFn p .phase i))
  decay := (List.range p.n_pairs).map (fdArrayVal lossFn p .decay)
  decay_rate := (List.range p.n_pairs).map (fun i =>
    -t * p.decay.getD i 0 * Real.exp (-p.decay_rate.getD i 0 * t))
  a := (t - p.x0) ^ 2 * sigmoid_s p t
  b := sigmoid_s p t
  x0 := -2 * p.a * (t - p.x0) * sigmoid_s p t
  alpha_0 := t ^ 2
  alpha_1 := Real.sin (2 * Real.pi * t)
  alpha_2 := Real.log (1 + t)
  tau := if t ≥ p.tau then fdScalarVal lossFn p .tau else 0
  eta := if t ≥ p.tau then fdScalarVal lossFn p .eta else 0
  gamma := if t ≥ p.tau then fdScalarVal lossFn p .gamma else 0
  sigma := fdScalarVal lossFn p .sigma
  beta := fdScalarVal lossFn p .beta

/-- QuantumGradientOptimizer.compute_gradients (lines 139-296) with a
supplied loss function: finite differences for amplitude / frequency /
decay, averaged analytic-plus-numeric for phase, closed forms for
decay_rate, the shape triple, and the polynomial coefficients, regime
triple gated on t >= tau, noise pair always numeric, then optional
clipping. -/
noncomputable def compute_gradients (cfg : OptimizerConfig)
    (lossFn : TradingParameters → ℝ) (p : TradingParameters) (t : ℝ) :
    Except String Gradients := do
  let amp ← mapExcept (fd_array lossFn p .amplitude) (List.range p.n_pairs)
  let ph ← mapExcept (fun i => do
      let numerical ← fd_array lossFn p .phase i
      pure (0.5 * (p.amplitude.getD i 0 *
        Real.cos (p.frequency.getD i 0 * t + p.phase.getD i 0) + numerical)))
    (List.range p.n_pairs)
  let dr := (List.range p.n_pairs).map (fun i =>
    -t * p.decay.getD i 0 * Real.exp (-p.decay_rate.getD i 0 * t))
  let fr ← mapExcept (fd_array lossFn p .frequency) (List.range p.n_pairs)
  let dc ← mapExcept (fd_array lossFn p .decay) (List.range p.n_pairs)
  let regime ← if t ≥ p.tau then do
      let gt ← fd_scalar lossFn p .tau
      let ge ← fd_scalar lossFn p .eta
      let gg ← fd_scalar lossFn p .gamma
      pure (gt, ge, gg)
    else pure ((0 : ℝ), (0 : ℝ), (0 : ℝ))
  let gsig ← fd_scalar lossFn p .sigma
  let gbet ← fd_scalar lossFn p .beta
  let g : Gradients :=
    ⟨amp, fr, ph, dc, dr,
      (t - p.x0) ^ 2 * sigmoid_s p t, sigmoid_s p t,
      -2 * p.a * (t - p.x0) * sigmoid_s p t,
      t ^ 2, Real.sin (2 * Real.pi * t), Real.log (1 + t),
      regime.1, regime.2.1, regime.2.2, gsig, gbet⟩
  pure (if cfg.clip_gradients then clip_gradients g else g)

lemma fd_array_ok {p : TradingParameters} (h : tpValid p)
    (lossFn : TradingParameters → ℝ) (f : ArrayField) (i : ℕ) :
    fd_array lossFn p f i = .ok (fdArrayVal lossFn p f i) := by
  unfold fd_array fdArrayVal
  rw [perturb_param_of_valid h, perturb_param_of_valid h]
  rfl

lemma fd_scalar_ok {p : TradingParameters} (h : tpValid p)
    (lossFn : TradingParameters → ℝ) (f : ScalarField) :
    fd_scalar lossFn p f = .ok (fdScalarVal lossFn p f) := by
  unfold fd_scalar fdScalarVal
  rw [perturb_scalar_param_of_valid h, perturb_scalar_param_of_valid h]
  rfl

lemma mapExcept_ok (F : ℕ → Except String ℝ) (f : ℕ → ℝ) :
    ∀ l : List ℕ, (∀ i ∈ l, F i = .ok (f i)) → mapExcept F l = .ok (l.map f) := by
  intro l
  induction l with
  | nil => intro _; rfl
  | cons i rest ih =>
    intro h
    unfold mapExcept
    rw [h i (List.mem_cons_self i rest), ih (fun j hj => h j (List.mem_cons_of_mem i hj))]
    rfl

lemma compute_gradients_eq {p : TradingParameters} (h : tpValid p)
    (cfg : OptimizerConfig) (lossFn : TradingParameters → ℝ) (t : ℝ) :
    compute_gradients cfg lossFn p t =
      .ok (if cfg.clip_gradients then clip_gradients (rawGradients lossFn p t)
        else rawGradients lossFn p t) := by
  unfold compute_gradients
  have hph : ∀ i ∈ List.range p.n_pairs, (do
      let numerical ← fd_array lossFn p .phase i
      pure (0.5 * (p.amplitude.getD i 0 *
        Real.cos (p.frequency.getD i 0 * t + p.phase.getD i 0) + numerical)) :
        Except String ℝ) =
      .ok (0.5 * (p.amplitude.getD i 0 *
        Real.cos (p.frequency.getD i 0 * t + p.phase.getD i 0) +
        fdArrayVal lossFn p .phase i)) := by
    intro i _
    rw [fd_array_ok h lossFn .phase i, ok_bind]
    rfl
  simp only [mapExcept_ok _ (fdArrayVal lossFn p .amplitude) (List.range p.n_pairs)
      (fun i _ => fd_array_ok h lossFn .amplitude i),
    mapExcept_ok _ (fun i => 0.5 *
      (p.amplitude.getD i 0 * Real.cos (p.frequency.getD i 0 * t + p.phase.getD i 0) +
        fdArrayVal lossFn p .phase i)) (List.range p.n_pairs) hph,
    mapExcept_ok _ (fdArrayVal lossFn p .frequency) (List.range p.n_pairs)
      (fun i _ => fd_array_ok h lossFn .frequency i),
    mapExcept_ok _ (fdArrayVal lossFn p .decay) (List.range p.n_pairs)
      (fun i _ => fd_array_ok h lossFn .decay i),
    fd_scalar_ok h lossFn, ok_bind]
  by_cases htau : t ≥ p.tau
  · rw [if_pos htau]
    unfold rawGradients
    rw [if_pos htau, if_pos htau, if_pos htau]
    simp only [pure_bind]
    rfl
  · rw [if_neg htau]
    unfold rawGradients
    rw [if_neg htau, if_neg htau, if_neg htau]
    simp only [pure_bind]
    rfl

/-! ## Adam updates and the optimization loop (gradient_optimizer.py lines 399-567) -/

/-- The string keys of the Adam moment dictionaries self.m / self.v:
one per scalar parameter plus indexed keys for array entries
(f-strings like amplitude_3). -/
inductive PKey
  | amplitude (i : ℕ)
  | frequency (i : ℕ)
  | phase (i : ℕ)
  | decay (i : ℕ)
  | decay_rate (i : ℕ)
  | a
  | b
  | x0
  | alpha_0
  | alpha_1
  | alpha_2
  | tau
  | eta
  | gamma
  | sigma
  | beta
deriving DecidableEq

/-- Mutable optimizer attributes: current learning rate, the two moment
dictionaries (a missing key reads as the 0.0 it is initialised to on first
use) and the iteration counter self.t. -/
structure OptimizerState where
  lr : ℝ
  m : PKey → ℝ
  v : PKey → ℝ
  t : ℕ

/-- QuantumGradientOptimizer._adam_update (lines 399-434). -/
noncomputable def adam_update (cfg : OptimizerConfig) (os : OptimizerState)
    (param_value gradient : ℝ) (key : PKey) : ℝ × OptimizerState :=
  let m1 := cfg.beta1 * os.m key + (1 - cfg.beta1) * gradient
  let v1 := cfg.beta2 * os.v key + (1 - cfg.beta2) * gradient ^ 2
  let m_hat := m1 / (1 - cfg.beta1 ^ os.t)
  let v_hat := v1 / (1 - cfg.beta2 ^ os.t)
  (param_value - os.lr * m_hat / (Real.sqrt v_hat + cfg.epsilon),
    { os with m := fun k => if k = key then m1 else os.m k,
              v := fun k => if k = key then v1 else os.v k })

/-- _update_learning_rate (lines 440-456). -/
noncomputable def update_learning_rate (cfg : OptimizerConfig) (os : OptimizerState)
    (epoch max_epochs : ℕ) : ℝ :=
  match cfg.scheduler_type with
  | .cosine => MIN_LEARNING_RATE + 0.5 * (cfg.learning_rate - MIN_LEARNING_RATE) *
      (1 + Real.cos (Real.pi * (epoch : ℝ) / (max_epochs : ℝ)))
  | .exponential => max (cfg.learning_rate * Real.rpow 0.95 ((epoch : ℝ) / 100))
      MIN_LEARNING_RATE
  | .constant => os.lr

/-- One parameter update: Adam when use_adam, else vanilla SGD (the two
branches of _update_params_with_gradients). -/
noncomputable def scalar_update (cfg : OptimizerConfig) (os : OptimizerState)
    (value gradient : ℝ) (key : PKey) : ℝ × OptimizerState :=
  if cfg.use_adam then adam_update cfg os value gradient key
  else (value - os.lr * gradient, os)

/-- Loop state of the per-index array update in
_update_params_with_gradients (lines 575-606): the optimizer state plus
the five copied arrays being overwritten index by index. -/
structure ArrUpd where
  os : OptimizerState
  na : List ℝ
  nf : List ℝ
  nph : List ℝ
  nd : List ℝ
  ndr : List ℝ

/-- The body of `for i in range(n_pairs)` in _update_params_with_gradients:
reads the original params and gradients at index i, writes the copies.
In the SGD branch the copies are read back (they still hold the original
value at index i). -/
noncomputable def array_update_step (cfg : OptimizerConfig) (p : TradingParameters)
    (g : Gradients) (st : ArrUpd) (i : ℕ) : ArrUpd :=
  if cfg.use_adam then
    let r1 := adam_update cfg st.os (p.amplitude.getD i 0) (g.amplitude.getD i 0) (.amplitude i)
    let r2 := adam_update cfg r1.2 (p.frequency.getD i 0) (g.frequency.getD i 0) (.frequency i)
    let r3 := adam_update cfg r2.2 (p.phase.getD i 0) (g.phase.getD i 0) (.phase i)
    let r4 := adam_update cfg r3.2 (p.decay.getD i 0) (g.decay.getD i 0) (.decay i)
    let r5 := adam_update cfg r4.2 (p.decay_rate.getD i 0) (g.decay_rate.getD i 0) (.decay_rate i)
    ⟨r5.2, st.na.set i r1.1, st.nf.set i r2.1, st.nph.set i r3.1,
      st.nd.set i r4.1, st.ndr.set i r5.1⟩
  else
    ⟨st.os,
      st.na.set i (st.na.getD i 0 - st.os.lr * g.amplitude.getD i 0),
      st.nf.set i (st.nf.getD i 0 - st.os.lr * g.frequency.getD i 0),
      st.nph.set i (st.nph.getD i 0 - st.os.lr * g.phase.getD i 0),
      st.nd.set i (st.nd.getD i 0 - st.os.lr * g.decay.getD i 0),
      st.ndr.set i (st.ndr.getD i 0 - st.os.lr * g.decay_rate.getD i 0)⟩

/-- _update_params_with_gradients (lines 569-653): per-index array
updates, then the eleven scalar updates in source order, then a fresh
TradingParameters construction (running __post_init__ again). -/
noncomputable def update_params_with_gradients (cfg : OptimizerConfig)
    (os0 : OptimizerState) (p : TradingParameters) (g : Gradients) :
    Except String (TradingParameters × OptimizerState) :=
  let st := (List.range p.n_pairs).foldl (array_update_step cfg p g)
    ⟨os0, p.amplitude, p.frequency, p.phase, p.decay, p.decay_rate⟩
  let ra := scalar_update cfg st.os p.a g.a .a
  let rb := scalar_update cfg ra.2 p.b g.b .b
  let rx0 := scalar_update cfg rb.2 p.x0 g.x0 .x0
  let ral0 := scalar_update cfg rx0.2 p.alpha_0 g.alpha_0 .alpha_0
  let ral1 := scalar_update cfg ral0.2 p.alpha_1 g.alpha_1 .alpha_1
  let ral2 := scalar_update cfg ral1.2 p.alpha_2 g.alpha_2 .alpha_2
  let rtau := scalar_update cfg ral2.2 p.tau g.tau .tau
  let reta := scalar_update cfg rtau.2 p.eta g.eta .eta
  let rgam := scalar_update cfg reta.2 p.gamma g.gamma .gamma
  let rsig := scalar_update cfg rgam.2 p.sigma g.sigma .sigma
  let rbet := scalar_update cfg rsig.2 p.beta g.beta .beta
  (mkParams p.n_pairs st.na st.nf st.nph st.nd st.ndr ra.1 rb.1 rx0.1 ral0.1 ral1.1
    ral2.1 rtau.1 reta.1 rgam.1 rsig.1 rbet.1).map (fun q => (q, rbet.2))

/-- The OptimizationResult dataclass (lines 60-70). -/
structure OptimizationResult where
  optimized_params : TradingParameters
  final_loss : ℝ
  loss_history : List ℝ
  gradient_norms : List ℝ
  learning_rates : List ℝ
  epochs : ℕ
  converged : Bool
  convergence_reason : String

/-- Local state of the optimize_parameters loop; best_loss = none models
the initial float(inf). -/
structure LoopState where
  params : TradingParameters
  os : OptimizerState
  best_loss : Option ℝ
  patience_ctr : ℕ
  loss_history : List ℝ
  gradient_norms : List ℝ
  learning_rates : List ℝ

/-- loss < best_loss - CONVERGENCE_TOLERANCE, with best_loss = inf
initially. -/
def lossImproves (loss : ℝ) (best : Option ℝ) : Prop :=
  match best with
  | none => True
  | some bl => loss < bl - CONVERGENCE_TOLERANCE

/-- One epoch of optimize_parameters (lines 500-554): set self.t, update
and record the learning rate, evaluate and record the loss (the supplied
loss function is called on the current params), compute gradients, record
their global norm, update the parameters, then the patience bookkeeping
and the early return. -/
noncomputable def optimize_epoch (cfg : OptimizerConfig)
    (lossFn : TradingParameters → ℝ) (max_epochs patience epoch : ℕ) (st : LoopState) :
    Except String (Sum OptimizationResult LoopState) := do
  let lr1 := update_learning_rate cfg st.os epoch max_epochs
  let os1 : OptimizerState := { st.os with t := epoch + 1, lr := lr1 }
  let lrs := st.learning_rates ++ [lr1]
  let loss := lossFn st.params
  let lh := st.loss_history ++ [loss]
  let g ← compute_gradients cfg lossFn st.params ((epoch : ℝ) * 0.01)
  let gns := st.gradient_norms ++ [Real.sqrt (gradSumSq g)]
  let r ← update_params_with_gradients cfg os1 st.params g
  let bc : Option ℝ × ℕ :=
    if lossImproves loss st.best_loss then (some loss, 0)
    else (st.best_loss, st.patience_ctr + 1)
  if bc.2 ≥ patience then
    pure (.inl ⟨r.1, loss, lh, gns, lrs, epoch + 1, true, "patience"⟩)
  else
    pure (.inr ⟨r.1, r.2, bc.1, bc.2, lh, gns, lrs⟩)

/-- The epoch loop, with fuel = remaining epochs; when the range is
exhausted the max_epochs result is built (final_loss = loss_history[-1],
an IndexError when the history is empty). -/
noncomputable def optimize_loop (cfg : OptimizerConfig)
    (lossFn : TradingParameters → ℝ) (max_epochs patience : ℕ) :
    ℕ → ℕ → LoopState → Except String OptimizationResult
  | _, 0, st =>
    match st.loss_history.getLast? with
    | none => .error "loss history empty"
    | some l => .ok ⟨st.params, l, st.loss_history, st.gradient_norms,
        st.learning_rates, max_epochs, false, "max_epochs"⟩
  | epoch, fuel + 1, st =>
    (optimize_epoch cfg lossFn max_epochs patience epoch st).bind fun out =>
      match out with
      | .inl r => .ok r
      | .inr st2 => optimize_loop cfg lossFn max_epochs patience (epoch + 1) fuel st2

/-- QuantumGradientOptimizer.optimize_parameters (lines 462-567) with a
supplied loss function: Adam state reset, then the epoch loop. -/
noncomputable def optimize_parameters (cfg : OptimizerConfig)
    (lossFn : TradingParameters → ℝ) (initial_params : TradingParameters)
    (max_epochs patience : ℕ) : Except String OptimizationResult :=
  optimize_loop cfg lossFn max_epochs patience 0 max_epochs
    ⟨initial_params, ⟨cfg.learning_rate, fun _ => 0, fun _ => 0, 0⟩, none, 0, [], [], []⟩

/-! ## Constant-loss analysis of the optimization loop -/

lemma set_getD_self (l : List ℝ) (i : ℕ) : l.set i (l.getD i 0) = l := by
  induction l generalizing i with
  | nil => simp
  | cons x xs ih =>
    cases i with
    | zero => simp [List.getD_cons_zero]
    | succ j => simpa using ih j

lemma getD_map_range (f0 : ℕ → ℝ) (n i : ℕ) :
    ((List.range n).map f0).getD i 0 = if i < n then f0 i else 0 := by
  by_cases h : i < n
  · rw [if_pos h, List.getD_eq_getElem?_getD]
    simp [List.getElem?_map, List.getElem?_range h]
  · rw [if_neg h, List.getD_eq_getElem?_getD]
    have : n ≤ i := Nat.le_of_not_lt h
    rw [List.getElem?_eq_none (by simpa using this)]
    rfl

lemma getD_map_mul (l : List ℝ) (s : ℝ) (i : ℕ) :
    (l.map (fun x => x * s)).getD i 0 = l.getD i 0 * s := by
  rw [List.getD_eq_getElem?_getD, List.getD_eq_getElem?_getD, List.getElem?_map]
  cases h : l[i]? with
  | none => simp
  | some x => simp

/-- The gradient components whose parameters are re-validated on every
construction all vanish: the finite differences of a constant loss, and
the closed-form decay_rate gradient when all decay amplitudes are zero. -/
def GZero (g : Gradients) : Prop :=
  (∀ i, g.amplitude.getD i 0 = 0) ∧ (∀ i, g.frequency.getD i 0 = 0) ∧
  (∀ i, g.decay.getD i 0 = 0) ∧ (∀ i, g.decay_rate.getD i 0 = 0) ∧ g.sigma = 0

lemma fdArrayVal_const (c : ℝ) (p : TradingParameters) (f : ArrayField) (i : ℕ) :
    fdArrayVal (fun _ => c) p f i = 0 := by
  simp [fdArrayVal]

lemma fdScalarVal_const (c : ℝ) (p : TradingParameters) (f : ScalarField) :
    fdScalarVal (fun _ => c) p f = 0 := by
  simp [fdScalarVal]

lemma rawGradients_const_GZero (c : ℝ) (p : TradingParameters) (t : ℝ)
    (hdec : ∀ i, p.decay.getD i 0 = 0) :
    GZero (rawGradients (fun _ => c) p t) := by
  refine ⟨fun i => ?_, fun i => ?_, fun i => ?_, fun i => ?_, ?_⟩
  · rw [show (rawGradients (fun _ => c) p t).amplitude =
      (List.range p.n_pairs).map (fdArrayVal (fun _ => c) p .amplitude) from rfl,
      getD_map_range]
    split <;> simp [fdArrayVal_const]
  · rw [show (rawGradients (fun _ => c) p t).frequency =
      (List.range p.n_pairs).map (fdArrayVal (fun _ => c) p .frequency) from rfl,
      getD_map_range]
    split <;> simp [fdArrayVal_const]
  · rw [show (rawGradients (fun _ => c) p t).decay =
      (List.range p.n_pairs).map (fdArrayVal (fun _ => c) p .decay) from rfl,
      getD_map_range]
    split <;> simp [fdArrayVal_const]
  · rw [show (rawGradients (fun _ => c) p t).decay_rate =
      (List.range p.n_pairs).map (fun i =>
        -t * p.decay.getD i 0 * Real.exp (-p.decay_rate.getD i 0 * t)) from rfl,
      getD_map_range]
    split
    · rw [hdec i]
      ring
    · rfl
  · rw [show (rawGradients (fun _ => c) p t).sigma =
      fdScalarVal (fun _ => c) p .sigma from rfl, fdScalarVal_const]

lemma scaleGradients_GZero (s : ℝ) (g : Gradients) (h : GZero g) :
    GZero (scaleGradients s g) := by
  obtain ⟨ha, hf, hd, hdr, hs⟩ := h
  refine ⟨fun i => ?_, fun i => ?_, fun i => ?_, fun i => ?_, ?_⟩
  · rw [show (scaleGradients s g).amplitude = g.amplitude.map (fun x => x * s) from rfl,
      getD_map_mul, ha i, zero_mul]
  · rw [show (scaleGradients s g).frequency = g.frequency.map (fun x => x * s) from rfl,
      getD_map_mul, hf i, zero_mul]
  · rw [show (scaleGradients s g).decay = g.decay.map (fun x => x * s) from rfl,
      getD_map_mul, hd i, zero_mul]
  · rw [show (scaleGradients s g).decay_rate = g.decay_rate.map (fun x => x * s) from rfl,
      getD_map_mul, hdr i, zero_mul]
  · rw [show (scaleGradients s g).sigma = g.sigma * s from rfl, hs, zero_mul]

lemma clip_gradients_GZero (g : Gradients) (h : GZero g) : GZero (clip_gradients g) := by
  unfold clip_gradients
  split
  · exact scaleGradients_GZero _ g h
  · exact h

/-! ### Adam updates with zero gradient and zero moments are the identity -/

/-- The keys whose parameter values feed the construction-time
assertions. -/
def ValidatedKey : PKey → Prop
  | .amplitude _ => True
  | .frequency _ => True
  | .decay _ => True
  | .decay_rate _ => True
  | .sigma => True
  | _ => False

/-- Both moment dictionaries vanish on every validated key. -/
def momentsZero (os : OptimizerState) : Prop :=
  ∀ k, ValidatedKey k → os.m k = 0 ∧ os.v k = 0

lemma adam_update_zero (cfg : OptimizerConfig) (os : OptimizerState) (value : ℝ)
    (key : PKey) (hm : os.m key = 0) (hv : os.v key = 0) :
    adam_update cfg os value 0 key = (value, os) := by
  simp only [adam_update, hm, hv]
  have h1 : cfg.beta1 * 0 + (1 - cfg.beta1) * (0 : ℝ) = 0 := by ring
  have h2 : cfg.beta2 * 0 + (1 - cfg.beta2) * (0 : ℝ) ^ 2 = 0 := by ring
  rw [h1, h2]
  have hmf : (fun k => if k = key then (0 : ℝ) else os.m k) = os.m := by
    funext k
    by_cases hk : k = key
    · rw [if_pos hk, hk, hm]
    · rw [if_neg hk]
  have hvf : (fun k => if k = key then (0 : ℝ) else os.v k) = os.v := by
    funext k
    by_cases hk : k = key
    · rw [if_pos hk, hk, hv]
    · rw [if_neg hk]
  rw [zero_div, zero_div, Real.sqrt_zero, mul_zero, zero_div, sub_zero, hmf, hvf]

lemma adam_update_momentsZero (cfg : OptimizerConfig) (os : OptimizerState)
    (value gradient : ℝ) (key : PKey) (hos : momentsZero os)
    (hkey : ¬ ValidatedKey key) :
    momentsZero (adam_update cfg os value gradient key).2 := by
  intro k hk
  have hne : k ≠ key := fun he => hkey (he ▸ hk)
  simp only [adam_update]
  rw [if_neg hne, if_neg hne]
  exact hos k hk

lemma adam_update_lr (cfg : OptimizerConfig) (os : OptimizerState)
    (value gradient : ℝ) (key : PKey) :
    (adam_update cfg os value gradient key).2.lr = os.lr := rfl

lemma scalar_update_zero (cfg : OptimizerConfig) (os : OptimizerState) (value : ℝ)
    (key : PKey) (hm : os.m key = 0) (hv : os.v key = 0) :
    scalar_update cfg os value 0 key = (value, os) := by
  unfold scalar_update
  split
  · exact adam_update_zero cfg os value key hm hv
  · rw [mul_zero, sub_zero]

lemma scalar_update_momentsZero (cfg : OptimizerConfig) (os : OptimizerState)
    (value gradient : ℝ) (key : PKey) (hos : momentsZero os)
    (hkey : ¬ ValidatedKey key) :
    momentsZero (scalar_update cfg os value gradient key).2 := by
  unfold scalar_update
  split
  · exact adam_update_momentsZero cfg os value gradient key hos hkey
  · exact hos

/-! ### The array update loop fixes the validated arrays -/

/-- Invariant along the per-index array update loop: moments vanish on
validated keys and the four validated array copies still hold their
original values (the phase copy only keeps its length). -/
def ArrInv (p : TradingParameters) (st : ArrUpd) : Prop :=
  momentsZero st.os ∧ st.na = p.amplitude ∧ st.nf = p.frequency ∧
  st.nd = p.decay ∧ st.ndr = p.decay_rate ∧ st.nph.length = p.phase.length

lemma array_update_step_inv (cfg : OptimizerConfig) (p : TradingParameters)
    (g : Gradients) (hg : GZero g) (i : ℕ) (st : ArrUpd) (h : ArrInv p st) :
    ArrInv p (array_update_step cfg p g st i) := by
  obtain ⟨hos, hna, hnf, hnd, hndr, hnph⟩ := h
  obtain ⟨hga, hgf, hgd, hgdr, _⟩ := hg
  unfold array_update_step
  split
  · dsimp only
    rw [hga i, hgf i, hgd i, hgdr i]
    rw [adam_update_zero cfg st.os (p.amplitude.getD i 0) (PKey.amplitude i)
      (hos (PKey.amplitude i) trivial).1 (hos (PKey.amplitude i) trivial).2]
    dsimp only
    rw [adam_update_zero cfg st.os (p.frequency.getD i 0) (PKey.frequency i)
      (hos (PKey.frequency i) trivial).1 (hos (PKey.frequency i) trivial).2]
    dsimp only
    set os3 := (adam_update cfg st.os (p.phase.getD i 0) (g.phase.getD i 0)
      (PKey.phase i)).2 with hos3def
    have hos3 : momentsZero os3 :=
      adam_update_momentsZero cfg st.os (p.phase.getD i 0) (g.phase.getD i 0)
        (PKey.phase i) hos (fun hf => hf)
    rw [adam_update_zero cfg os3 (p.decay.getD i 0) (PKey.decay i)
      (hos3 (PKey.decay i) trivial).1 (hos3 (PKey.decay i) trivial).2]
    dsimp only
    rw [adam_update_zero cfg os3 (p.decay_rate.getD i 0) (PKey.decay_rate i)
      (hos3 (PKey.decay_rate i) trivial).1 (hos3 (PKey.decay_rate i) trivial).2]
    dsimp only
    refine ⟨hos3, ?_, ?_, ?_, ?_, ?_⟩
    · rw [hna, set_getD_self]
    · rw [hnf, set_getD_self]
    · rw [hnd, set_getD_self]
    · rw [hndr, set_getD_self]
    · rw [List.length_set, hnph]
  · refine ⟨hos, ?_, ?_, ?_, ?_, ?_⟩
    · rw [hga i, mul_zero, sub_zero, hna, set_getD_self]
    · rw [hgf i, mul_zero, sub_zero, hnf, set_getD_self]
    · rw [hgd i, mul_zero, sub_zero, hnd, set_getD_self]
    · rw [hgdr i, mul_zero, sub_zero, hndr, set_getD_self]
    · rw [List.length_set, hnph]

lemma foldl_array_inv (cfg : OptimizerConfig) (p : TradingParameters) (g : Gradients)
    (hg : GZero g) : ∀ (l : List ℕ) (st : ArrUpd), ArrInv p st →
      ArrInv p (l.foldl (array_update_step cfg p g) st) := by
  intro l
  induction l with
  | nil => intro st h; exact h
  | cons i rest ih =>
    intro st h
    exact ih _ (array_update_step_inv cfg p g hg i st h)

lemma update_params_zeroG (cfg : OptimizerConfig) (os0 : OptimizerState)
    (p : TradingParameters) (g : Gradients) (hval : tpValid p) (hg : GZero g)
    (hos : momentsZero os0) :
    ∃ q os1, update_params_with_gradients cfg os0 p g = .ok (q, os1) ∧
      q.n_pairs = p.n_pairs ∧ q.amplitude = p.amplitude ∧ q.frequency = p.frequency ∧
      q.decay = p.decay ∧ q.decay_rate = p.decay_rate ∧ q.sigma = p.sigma ∧
      q.phase.length = p.phase.length ∧ momentsZero os1 ∧ tpValid q := by
  have hfold := foldl_array_inv cfg p g hg (List.range p.n_pairs)
    ⟨os0, p.amplitude, p.frequency, p.phase, p.decay, p.decay_rate⟩
    ⟨hos, rfl, rfl, rfl, rfl, rfl⟩
  obtain ⟨hga, hgf, hgd, hgdr, hgs⟩ := hg
  unfold update_params_with_gradients
  dsimp only
  set st := (List.range p.n_pairs).foldl (array_update_step cfg p g)
    ⟨os0, p.amplitude, p.frequency, p.phase, p.decay, p.decay_rate⟩ with hstdef
  obtain ⟨hosF, hna, hnf, hnd, hndr, hnph⟩ := hfold
  set os1 := (scalar_update cfg st.os p.a g.a PKey.a).2 with hd1
  have m1 : momentsZero os1 :=
    scalar_update_momentsZero cfg st.os p.a g.a PKey.a hosF (fun hf => hf)
  set os2 := (scalar_update cfg os1 p.b g.b PKey.b).2 with hd2
  have m2 : momentsZero os2 :=
    scalar_update_momentsZero cfg os1 p.b g.b PKey.b m1 (fun hf => hf)
  set os3 := (scalar_update cfg os2 p.x0 g.x0 PKey.x0).2 with hd3
  have m3 : momentsZero os3 :=
    scalar_update_momentsZero cfg os2 p.x0 g.x0 PKey.x0 m2 (fun hf => hf)
  set os4 := (scalar_update cfg os3 p.alpha_0 g.alpha_0 PKey.alpha_0).2 with hd4
  have m4 : momentsZero os4 :=
    scalar_update_momentsZero cfg os3 p.alpha_0 g.alpha_0 PKey.alpha_0 m3 (fun hf => hf)
  set os5 := (scalar_update cfg os4 p.alpha_1 g.alpha_1 PKey.alpha_1).2 with hd5
  have m5 : momentsZero os5 :=
    scalar_update_momentsZero cfg os4 p.alpha_1 g.alpha_1 PKey.alpha_1 m4 (fun hf => hf)
  set os6 := (scalar_update cfg os5 p.alpha_2 g.alpha_2 PKey.alpha_2).2 with hd6
  have m6 : momentsZero os6 :=
    scalar_update_momentsZero cfg os5 p.alpha_2 g.alpha_2 PKey.alpha_2 m5 (fun hf => hf)
  set os7 := (scalar_update cfg os6 p.tau g.tau PKey.tau).2 with hd7
  have m7 : momentsZero os7 :=
    scalar_update_momentsZero cfg os6 p.tau g.tau PKey.tau m6 (fun hf => hf)
  set os8 := (scalar_update cfg os7 p.eta g.eta PKey.eta).2 with hd8
  have m8 : momentsZero os8 :=
    scalar_update_momentsZero cfg os7 p.eta g.eta PKey.eta m7 (fun hf => hf)
  set os9 := (scalar_update cfg os8 p.gamma g.gamma PKey.gamma).2 with hd9
  have m9 : momentsZero os9 :=
    scalar_update_momentsZero cfg os8 p.gamma g.gamma PKey.gamma m8 (fun hf => hf)
  rw [hgs]
  rw [scalar_update_zero cfg os9 p.sigma PKey.sigma
    (m9 PKey.sigma trivial).1 (m9 PKey.sigma trivial).2]
  dsimp only
  set os11 := (scalar_update cfg os9 p.beta g.beta PKey.beta).2 with hd11
  have m11 : momentsZero os11 :=
    scalar_update_momentsZero cfg os9 p.beta g.beta PKey.beta m9 (fun hf => hf)
  obtain ⟨hpos, hlena, hlenf, hlenp, hlend, hlendr, hmina, hminf, hmindr, hsig⟩ := hval
  unfold mkParams
  dsimp only
  split
  · rename_i hQ
    exact ⟨_, os11, rfl, rfl, hna, hnf, hnd, hndr, rfl, hnph, m11, hQ⟩
  · rename_i hQ
    exact absurd ⟨hpos,
      by dsimp only; rw [hna]; exact hlena,
      by dsimp only; rw [hnf]; exact hlenf,
      by dsimp only; rw [hnph]; exact hlenp,
      by dsimp only; rw [hnd]; exact hlend,
      by dsimp only; rw [hndr]; exact hlendr,
      by dsimp only; rw [hna]; exact hmina,
      by dsimp only; rw [hnf]; exact hminf,
      by dsimp only; rw [hndr]; exact hmindr,
      by dsimp only; exact hsig⟩ hQ

/-! ### The epoch step under a constant loss -/

/-- Run invariant under a constant loss with zero decay amplitudes: the
current parameters are valid, all validated fields still hold their
initial values, and the Adam moments of validated keys are zero. -/
def cZP (p0 q : TradingParameters) (os : OptimizerState) : Prop :=
  tpValid q ∧ q.n_pairs = p0.n_pairs ∧ q.amplitude = p0.amplitude ∧
  q.frequency = p0.frequency ∧ q.decay = p0.decay ∧ q.decay_rate = p0.decay_rate ∧
  q.sigma = p0.sigma ∧ momentsZero os

lemma optimize_epoch_const (cfg : OptimizerConfig) (c : ℝ) (p0 : TradingParameters)
    (max_epochs patience epoch : ℕ) (st : LoopState)
    (hdec0 : ∀ i, p0.decay.getD i 0 = 0) (hZ : cZP p0 st.params st.os) :
    ∃ q os2 gn,
      optimize_epoch cfg (fun _ => c) max_epochs patience epoch st =
        (if (if lossImproves c st.best_loss then 0 else st.patience_ctr + 1) ≥ patience then
          .ok (.inl ⟨q, c, st.loss_history ++ [c], st.gradient_norms ++ [gn],
            st.learning_rates ++ [update_learning_rate cfg st.os epoch max_epochs],
            epoch + 1, true, "patience"⟩)
        else
          .ok (.inr ⟨q, os2,
            (if lossImproves c st.best_loss then some c else st.best_loss),
            (if lossImproves c st.best_loss then 0 else st.patience_ctr + 1),
            st.loss_history ++ [c], st.gradient_norms ++ [gn],
            st.learning_rates ++ [update_learning_rate cfg st.os epoch max_epochs]⟩)) ∧
      cZP p0 q os2 := by
  obtain ⟨hv, hn, hamp, hfreq, hdec, hdr, hsig, hmz⟩ := hZ
  have hdecSt : ∀ i, st.params.decay.getD i 0 = 0 := fun i => by
    rw [hdec]
    exact hdec0 i
  set G := (if cfg.clip_gradients then
    clip_gradients (rawGradients (fun _ => c) st.params ((epoch : ℝ) * 0.01))
    else rawGradients (fun _ => c) st.params ((epoch : ℝ) * 0.01)) with hGdef
  have hGZ : GZero G := by
    rw [hGdef]
    have hraw := rawGradients_const_GZero c st.params ((epoch : ℝ) * 0.01) hdecSt
    split
    · exact clip_gradients_GZero _ hraw
    · exact hraw
  obtain ⟨q, os2, hupd, hqn, hqa, hqf, hqd, hqdr, hqs, _, hmz2, hqv⟩ :=
    update_params_zeroG cfg
      ⟨update_learning_rate cfg st.os epoch max_epochs, st.os.m, st.os.v, epoch + 1⟩
      st.params G hv hGZ hmz
  refine ⟨q, os2, Real.sqrt (gradSumSq G), ?_, hqv, hqn.trans hn, hqa.trans hamp,
    hqf.trans hfreq, hqd.trans hdec, hqdr.trans hdr, hqs.trans hsig, hmz2⟩
  unfold optimize_epoch
  dsimp only
  rw [compute_gradients_eq hv cfg (fun _ => c) ((epoch : ℝ) * 0.01), ok_bind]
  rw [← hGdef, hupd, ok_bind]
  by_cases himp : lossImproves c st.best_loss
  · rw [if_pos himp, if_pos himp, if_pos himp]
    dsimp only
    by_cases hge : 0 ≥ patience
    · rw [if_pos hge, if_pos hge]
      rfl
    · rw [if_neg hge, if_neg hge]
      rfl
  · rw [if_neg himp, if_neg himp, if_neg himp]
    dsimp only
    by_cases hge : st.patience_ctr + 1 ≥ patience
    · rw [if_pos hge, if_pos hge]
      rfl
    · rw [if_neg hge, if_neg hge]
      rfl

lemma lossImproves_some_self (c : ℝ) : ¬ lossImproves c (some c) := by
  unfold lossImproves
  simp only
  intro hlt
  have : (0 : ℝ) < CONVERGENCE_TOLERANCE := by norm_num [CONVERGENCE_TOLERANCE]
  linarith

/-- After the first epoch has set best_loss = c, each further epoch under a
constant loss increments the patience counter; once it reaches the
configured patience the loop returns with reason patience. -/
lemma optimize_loop_const (cfg : OptimizerConfig) (c : ℝ) (p0 : TradingParameters)
    (max_epochs patience : ℕ) (hdec0 : ∀ i, p0.decay.getD i 0 = 0) :
    ∀ (r epoch fuel : ℕ) (st : LoopState), cZP p0 st.params st.os →
      st.best_loss = some c → st.patience_ctr + r = patience → 1 ≤ r → r ≤ fuel →
      ∃ res, optimize_loop cfg (fun _ => c) max_epochs patience epoch fuel st = .ok res ∧
        res.epochs = epoch + r ∧ res.convergence_reason = "patience" ∧
        res.converged = true ∧ res.final_loss = c ∧
        res.optimized_params.amplitude = p0.amplitude ∧
        res.optimized_params.frequency = p0.frequency ∧
        res.optimized_params.decay = p0.decay ∧
        res.optimized_params.decay_rate = p0.decay_rate ∧
        res.optimized_params.sigma = p0.sigma := by
  intro r
  induction r with
  | zero => intro epoch fuel st _ _ _ h1 _; omega
  | succ r ih =>
    intro epoch fuel st hZ hbest hctr _ hfuel
    obtain ⟨fuel, rfl⟩ : ∃ f, fuel = f + 1 := ⟨fuel - 1, by omega⟩
    obtain ⟨q, os2, gn, hepoch, hZ2⟩ := optimize_epoch_const cfg c p0 max_epochs
      patience epoch st hdec0 hZ
    rw [hbest] at hepoch
    simp only [if_neg (lossImproves_some_self c)] at hepoch
    unfold optimize_loop
    rw [hepoch]
    by_cases hr : r = 0
    · subst hr
      have hge : st.patience_ctr + 1 ≥ patience := by omega
      rw [if_pos hge]
      exact ⟨_, rfl, rfl, rfl, rfl, rfl, hZ2.2.2.1, hZ2.2.2.2.1, hZ2.2.2.2.2.1,
        hZ2.2.2.2.2.2.1, hZ2.2.2.2.2.2.2.1⟩
    · have hge : ¬ st.patience_ctr + 1 ≥ patience := by omega
      rw [if_neg hge]
      rw [except_bind_ok]
      dsimp only
      obtain ⟨res, hres, he, hrs, hcv, hfl, ha, hf2, hd2, hdr2, hs2⟩ :=
        ih (epoch + 1) fuel ⟨q, os2, some c, st.patience_ctr + 1,
          st.loss_history ++ [c], st.gradient_norms ++ [gn],
          st.learning_rates ++ [update_learning_rate cfg st.os epoch max_epochs]⟩
          hZ2 rfl (by show st.patience_ctr + 1 + r = patience; omega)
          (by omega) (by omega)
      exact ⟨res, hres, by rw [he]; omega, hrs, hcv, hfl, ha, hf2, hd2, hdr2, hs2⟩

/-- Main constant-loss run lemma: with all decay amplitudes zero and
patience below max_epochs, optimize_parameters with a constant loss
terminates with reason patience after patience + 1 epochs, leaving every
validated parameter field unchanged. -/
lemma optimize_parameters_const (cfg : OptimizerConfig) (c : ℝ)
    (p0 : TradingParameters) (max_epochs patience : ℕ) (hval : tpValid p0)
    (hdec0 : ∀ i, p0.decay.getD i 0 = 0) (hlt : patience < max_epochs) :
    ∃ res, optimize_parameters cfg (fun _ => c) p0 max_epochs patience = .ok res ∧
      res.epochs = patience + 1 ∧ res.convergence_reason = "patience" ∧
      res.converged = true ∧ res.final_loss = c ∧
      res.optimized_params.amplitude = p0.amplitude ∧
      res.optimized_params.frequency = p0.frequency ∧
      res.optimized_params.decay = p0.decay ∧
      res.optimized_params.decay_rate = p0.decay_rate ∧
      res.optimized_params.sigma = p0.sigma := by
  unfold optimize_parameters
  obtain ⟨fuel, rfl⟩ : ∃ f, max_epochs = f + 1 := ⟨max_epochs - 1, by omega⟩
  set st0 : LoopState := ⟨p0, ⟨cfg.learning_rate, fun _ => 0, fun _ => 0, 0⟩,
    none, 0, [], [], []⟩ with hst0
  have hZ0 : cZP p0 st0.params st0.os :=
    ⟨hval, rfl, rfl, rfl, rfl, rfl, rfl, fun _ _ => ⟨rfl, rfl⟩⟩
  obtain ⟨q, os2, gn, hepoch, hZ1⟩ := optimize_epoch_const cfg c p0 (fuel + 1)
    patience 0 st0 hdec0 hZ0
  have himp : lossImproves c st0.best_loss := by
    rw [hst0]
    exact trivial
  simp only [if_pos himp] at hepoch
  unfold optimize_loop
  rw [hepoch]
  by_cases hp : patience = 0
  · subst hp
    rw [if_pos (le_refl 0)]
    exact ⟨_, rfl, rfl, rfl, rfl, rfl, hZ1.2.2.1, hZ1.2.2.2.1, hZ1.2.2.2.2.1,
      hZ1.2.2.2.2.2.1, hZ1.2.2.2.2.2.2.1⟩
  · have hge : ¬ 0 ≥ patience := by omega
    rw [if_neg hge]
    rw [except_bind_ok]
    dsimp only
    obtain ⟨res, hres, he, hrs, hcv, hfl, ha, hf2, hd2, hdr2, hs2⟩ :=
      optimize_loop_const cfg c p0 (fuel + 1) patience hdec0 patience 1 fuel
        ⟨q, os2, some c, 0, st0.loss_history ++ [c], st0.gradient_norms ++ [gn],
          st0.learning_rates ++ [update_learning_rate cfg st0.os 0 (fuel + 1)]⟩
        hZ1 rfl (by show 0 + patience = patience; omega) (by omega) (by omega)
    exact ⟨res, hres, by rw [he]; omega, hrs, hcv, hfl, ha, hf2, hd2, hdr2, hs2⟩

/-! ## Concrete evaluations used by the witnesses -/

/-- A parameter record with no channels and all scalars zero. -/
def pZero : TradingParameters :=
  ⟨0, [], [], [], [], [], 0, 0, 0, 0, 0, 0, 0, 0, 0, 0, 0⟩

/-- A fixed randomness source. -/
def rand0 : Rand := ⟨fun _ => 0, 0⟩

/-- A second randomness source, different from rand0. -/
def rand1 : Rand := ⟨fun s => s + 2, 1⟩

lemma assembleH_zeroParams (E : EngineState 1) (rand : Rand) :
    assembleH 1 E rand 0 pZero (integral_value false 0 pZero) = 0 := by
  unfold assembleH integral_value compute_softplus_integral
  simp [pZero, intervalIntegral.integral_same]

lemma frobNorm_zero (d : ℕ) : frobNorm (0 : Matrix (Fin d) (Fin d) ℂ) = 0 := by
  unfold frobNorm
  simp

/-- With beta = 0 the noise scale is 1 on every engine state, so the
np.random.normal call never raises. -/
lemma noiseScale_beta_zero {n : ℕ} (p : TradingParameters) (E : EngineState n)
    (hb : p.beta = 0) : noiseScale p E = 1 := by
  unfold noiseScale
  rw [hb, zero_mul, add_zero]
  norm_num

lemma hamiltonian_operator_zero (E : EngineState 1) (rand : Rand) :
    hamiltonian_operator 1 E rand false 0 pZero = .ok 0 := by
  rw [hamiltonian_operator_eq, assembleH_zeroParams, frobNorm_zero]
  rw [if_neg (by rw [noiseScale_beta_zero pZero E rfl]; norm_num)]
  rw [if_neg (by norm_num [MAX_HAMILTONIAN_NORM])]

lemma evolve_step_zero_eval :
    evolve_step pZero rand0 false 1 0 (initEngine 1) = .ok ⟨basis0 1, [basis0 1]⟩ := by
  unfold evolve_step
  rw [show ((0 : ℕ) : ℝ) * 1 = 0 by norm_num]
  rw [hamiltonian_operator_zero (initEngine 1) rand0, except_bind_ok]
  dsimp only
  have hmv : ((1 : Matrix (Fin (2 ^ 1)) (Fin (2 ^ 1)) ℂ) -
      (Complex.I * ((1 : ℝ) : ℂ)) • (0 : Matrix (Fin (2 ^ 1)) (Fin (2 ^ 1)) ℂ)).mulVec
      (initEngine 1).quantum_state = basis0 1 := by
    rw [smul_zero, sub_zero, Matrix.one_mulVec]
    rfl
  rw [hmv]
  have hre : (vdot (basis0 1) (basis0 1)).re = 1 := by
    rw [vdot_self_re, normSqV_basis0]
  rw [hre, Real.sqrt_one]
  have hfn : (fun i => basis0 1 i / (((1 : ℝ) : ℂ))) = basis0 1 := by
    funext i
    rw [Complex.ofReal_one, div_one]
  rw [hfn]
  unfold update_quantum_state
  rw [abs_vdot_self, normSqV_basis0]
  rw [if_neg (by norm_num [QUANTUM_PRECISION_TOLERANCE])]
  rw [show (initEngine 1).state_history ++ [basis0 1] = [basis0 1] from rfl]
  dsimp only
  rw [if_neg (by simp)]

/-- Entry (0,0) of a single-site tensor operator: the generator entry when
the site is in range, 1 otherwise. -/
lemma tensor_product_operator_00 (σ : Matrix (Fin 2) (Fin 2) ℂ) (q : ℕ) :
    ∀ k, tensor_product_operator σ q k 0 0 =
      (if q < k then σ 0 0 else 1) := by
  intro k
  induction k with
  | zero =>
    rw [if_neg (by omega)]
    rfl
  | succ k ih =>
    have hz : ∀ h : 2 ^ k * 2 = 2 ^ (k + 1),
        (finCongr h).symm (0 : Fin (2 ^ (k + 1))) = (0 : Fin (2 ^ k * 2)) := by
      intro h
      apply Fin.ext
      rfl
    show (Matrix.reindex (finCongr (pow_succ 2 k).symm) (finCongr (pow_succ 2 k).symm)
      (kron2 (tensor_product_operator σ q k) (if k = q then σ else 1))) 0 0 = _
    rw [Matrix.reindex_apply, Matrix.submatrix_apply, hz]
    show tensor_product_operator σ q k (finDivMod (2 ^ k) 0).1 (finDivMod (2 ^ k) 0).1 *
      (if k = q then σ else 1) (finDivMod (2 ^ k) 0).2 (finDivMod (2 ^ k) 0).2 = _
    have h1 : (finDivMod (2 ^ k) (0 : Fin (2 ^ k * 2))).1 = 0 := by
      apply Fin.ext
      show ((0 : Fin (2 ^ k * 2)) : ℕ) / 2 = ((0 : Fin (2 ^ k)) : ℕ)
      rw [Fin.val_zero', Fin.val_zero']
    have h2 : (finDivMod (2 ^ k) (0 : Fin (2 ^ k * 2))).2 = 0 := by
      apply Fin.ext
      show ((0 : Fin (2 ^ k * 2)) : ℕ) % 2 = ((0 : Fin 2) : ℕ)
      rw [Fin.val_zero']
      rfl
    rw [h1, h2, ih]
    by_cases hq : q < k
    · rw [if_pos hq, if_pos (show q < k + 1 from by omega),
        if_neg (show ¬ k = q from by omega), Matrix.one_apply_eq, mul_one]
    · rw [if_neg hq]
      by_cases hkq : k = q
      · rw [if_pos hkq, if_pos (show q < k + 1 from by omega), one_mul]
      · rw [if_neg hkq, if_neg (show ¬ q < k + 1 from by omega),
          Matrix.one_apply_eq, mul_one]

lemma pauliX_00 : pauliX 0 0 = 0 := rfl

lemma vdot_basis0_mulVec (n : ℕ) (M : Matrix (Fin (2 ^ n)) (Fin (2 ^ n)) ℂ) :
    vdot (basis0 n) (M.mulVec (basis0 n)) = M 0 0 := by
  unfold vdot basis0
  rw [Finset.sum_congr rfl (fun i _ => by
    rw [show (star (if i.val = 0 then (1 : ℂ) else 0) * M.mulVec
        (fun j => if j.val = 0 then 1 else 0) i) =
      (if i = 0 then M.mulVec (fun j => if j.val = 0 then (1 : ℂ) else 0) 0 else 0) from by
        by_cases h : i.val = 0
        · rw [if_pos h, if_pos (Fin.ext h)]
          have : i = 0 := Fin.ext h
          rw [this]
          simp
        · rw [if_neg h, if_neg (fun he => h (by rw [he]; rfl))]
          simp])]
  rw [Finset.sum_ite_eq' Finset.univ (0 : Fin (2 ^ n))]
  rw [if_pos (Finset.mem_univ 0)]
  unfold Matrix.mulVec Matrix.dotProduct
  rw [Finset.sum_congr rfl (fun j _ => by
    rw [show (M 0 j * if j.val = 0 then (1 : ℂ) else 0) =
      (if j = 0 then M 0 0 else 0) from by
        by_cases h : j.val = 0
        · rw [if_pos h, if_pos (Fin.ext h)]
          have : j = 0 := Fin.ext h
          rw [this, mul_one]
        · rw [if_neg h, if_neg (fun he => h (by rw [he]; rfl))]
          rw [mul_zero]])]
  rw [Finset.sum_ite_eq' Finset.univ (0 : Fin (2 ^ n))]
  rw [if_pos (Finset.mem_univ 0)]

/-- The amended concrete scenario of the spec, with the frequency raised to
the minimum the construction-time assertions allow. -/
def pC7 : TradingParameters :=
  ⟨1, [1], [MIN_PARAM_VALUE], [0], [0], [1], 0, 0, 0, 0, 0, 0, 0, 0, 0, 0, 0⟩

lemma assembleH_pC7 (rand : Rand) :
    assembleH 2 (initEngine 2) rand 0 pC7 (integral_value false 0 pC7) = 0 := by
  unfold assembleH integral_value compute_softplus_integral
  simp [pC7, intervalIntegral.integral_same, Finset.sum_range_one]

lemma hamiltonian_operator_pC7 (rand : Rand) :
    hamiltonian_operator 2 (initEngine 2) rand false 0 pC7 = .ok 0 := by
  rw [hamiltonian_operator_eq, assembleH_pC7, frobNorm_zero]
  rw [if_neg (by rw [noiseScale_beta_zero pC7 (initEngine 2) rfl]; norm_num)]
  rw [if_neg (by norm_num [MAX_HAMILTONIAN_NORM])]

lemma calculate_trading_signal_init2 : calculate_trading_signal 2 (initEngine 2) = 0 := by
  unfold calculate_trading_signal
  rw [show (initEngine 2).quantum_state = basis0 2 from rfl, vdot_basis0_mulVec,
    Matrix.sum_apply]
  rw [Finset.sum_congr rfl (fun i hi => show get_pauli_x 2 i 0 0 = 0 from by
    rw [show get_pauli_x 2 i 0 0 = tensor_product_operator pauliX i 2 0 0 from rfl,
      tensor_product_operator_00 pauliX i 2, if_pos (Finset.mem_range.mp hi)]
    exact pauliX_00)]
  simp

/-! ## Claim theorems -/

lemma getD_zero_of_all_zero {l : List ℝ} (h : ∀ x ∈ l, x = 0) :
    ∀ i, l.getD i 0 = 0 := by
  intro i
  rw [List.getD_eq_getElem?_getD]
  cases hx : l[i]? with
  | none => rfl
  | some x =>
    have hmem : x ∈ l := by
      have := List.getElem?_eq_some.mp hx
      obtain ⟨hlt, hget⟩ := this
      rw [← hget]
      exact List.getElem_mem hlt
    rw [Option.getD_some, h x hmem]

/-- C4 example gradients: one large scalar component. -/
def gClipEx : Gradients := ⟨[], [], [], [], [], 26, 0, 0, 0, 0, 0, 0, 0, 0, 0, 0⟩

/-- C4 example gradients: all components zero. -/
def gSmallEx : Gradients := ⟨[], [], [], [], [], 0, 0, 0, 0, 0, 0, 0, 0, 0, 0, 0⟩

lemma gClipEx_norm : gradGlobalNorm gClipEx = 26 := by
  have hs : gradSumSq gClipEx = 676 := by
    norm_num [gradSumSq, sumSqList, gClipEx]
  rw [gradGlobalNorm, hs, show (676 : ℝ) = 26 ^ 2 by norm_num,
    Real.sqrt_sq (by norm_num : (0 : ℝ) ≤ 26)]

lemma gSmallEx_norm : gradGlobalNorm gSmallEx = 0 := by
  have hs : gradSumSq gSmallEx = 0 := by
    norm_num [gradSumSq, sumSqList, gSmallEx]
  rw [gradGlobalNorm, hs, Real.sqrt_zero]

/-- C4: if the global L2 norm of the gradient dictionary (array entries
counted individually) exceeds 10.0, the clipped result has global norm
exactly 10.0 (hence within 1e-9) and every component is scaled by the
same uniform factor; at or below 10.0, clipping returns the gradients
unchanged. -/
theorem claim_c4 (g : Gradients) :
    (gradGlobalNorm g > GRADIENT_CLIP_THRESHOLD →
      gradGlobalNorm (clip_gradients g) = GRADIENT_CLIP_THRESHOLD ∧
      |gradGlobalNorm (clip_gradients g) - GRADIENT_CLIP_THRESHOLD| ≤ 1e-9 ∧
      clip_gradients g = scaleGradients (GRADIENT_CLIP_THRESHOLD / gradGlobalNorm g) g) ∧
    (gradGlobalNorm g ≤ GRADIENT_CLIP_THRESHOLD → clip_gradients g = g) := by
  constructor
  · intro h
    have hpos : 0 < gradGlobalNorm g :=
      lt_trans (by norm_num [GRADIENT_CLIP_THRESHOLD]) h
    have hsn : 0 ≤ GRADIENT_CLIP_THRESHOLD / gradGlobalNorm g :=
      div_nonneg (by norm_num [GRADIENT_CLIP_THRESHOLD]) hpos.le
    have heq : clip_gradients g =
        scaleGradients (GRADIENT_CLIP_THRESHOLD / gradGlobalNorm g) g := by
      unfold clip_gradients
      rw [if_pos h]
    have hnorm : gradGlobalNorm (clip_gradients g) = GRADIENT_CLIP_THRESHOLD := by
      rw [heq, gradGlobalNorm_scale g _ hsn, mul_comm,
        div_mul_cancel₀ _ (ne_of_gt hpos)]
    refine ⟨hnorm, ?_, heq⟩
    rw [hnorm, sub_self, abs_zero]
    norm_num
  · intro h
    unfold clip_gradients
    rw [if_neg (not_lt.mpr h)]

theorem claim_c4_witness :
    gradGlobalNorm gClipEx > GRADIENT_CLIP_THRESHOLD ∧
    gradGlobalNorm (clip_gradients gClipEx) = GRADIENT_CLIP_THRESHOLD ∧
    gradGlobalNorm gSmallEx ≤ GRADIENT_CLIP_THRESHOLD ∧
    clip_gradients gSmallEx = gSmallEx := by
  have h1 : gradGlobalNorm gClipEx > GRADIENT_CLIP_THRESHOLD := by
    rw [gClipEx_norm]
    norm_num [GRADIENT_CLIP_THRESHOLD]
  have h2 : gradGlobalNorm gSmallEx ≤ GRADIENT_CLIP_THRESHOLD := by
    rw [gSmallEx_norm]
    norm_num [GRADIENT_CLIP_THRESHOLD]
  exact ⟨h1, ((claim_c4 gClipEx).1 h1).1, h2, (claim_c4 gSmallEx).2 h2⟩

/-- C2: every matrix returned by hamiltonian_operator is exactly Hermitian
(in particular Hermitian within the 1e-12 tolerance). -/
theorem claim_c2 (n : ℕ) (E : EngineState n) (rand : Rand) (quadFail : Bool)
    (t : ℝ) (p : TradingParameters) (M : Matrix (Fin (2 ^ n)) (Fin (2 ^ n)) ℂ)
    (h : hamiltonian_operator n E rand quadFail t p = .ok M) :
    Mᴴ = M ∧ ∀ i j, Complex.abs (M i j - Mᴴ i j) ≤ 1e-12 := by
  have hherm : Mᴴ = M := by
    rw [hamiltonian_operator_ok h]
    exact assembleH_conjTranspose n E rand t p (integral_value quadFail t p)
  refine ⟨hherm, fun i j => ?_⟩
  rw [hherm, sub_self]
  simp only [map_zero]
  norm_num

theorem claim_c2_witness :
    ((0 : Matrix (Fin (2 ^ 1)) (Fin (2 ^ 1)) ℂ)ᴴ = 0) :=
  (claim_c2 1 (initEngine 1) rand0 false 0 pZero 0
    (hamiltonian_operator_zero (initEngine 1) rand0)).1

/-- C3 counterexample parameters: a parameter set passing every
__post_init__ assertion (beta is unconstrained there) whose beta = -2
makes the noise scale negative as soon as the last history entry is a
unit vector. -/
def pC3 : TradingParameters :=
  ⟨1, [1], [MIN_PARAM_VALUE], [0], [0], [1], 0, 0, 0, 0, 0, 0, 0, 0, 0, 0, -2⟩

lemma pC3_valid : tpValid pC3 := by
  refine ⟨by decide, rfl, rfl, rfl, rfl, rfl, ?_, ?_, ?_, ?_⟩
  · intro x hx
    rw [show pC3.amplitude = [1] from rfl] at hx
    simp at hx
    rw [hx]
    norm_num [MIN_PARAM_VALUE]
  · intro x hx
    rw [show pC3.frequency = [MIN_PARAM_VALUE] from rfl] at hx
    simp at hx
    rw [hx]
  · intro x hx
    rw [show pC3.decay_rate = [1] from rfl] at hx
    simp at hx
    rw [hx]
    norm_num [MIN_PARAM_VALUE]
  · rw [show pC3.sigma = 0 from rfl]
    norm_num [MAX_NOISE_AMPLITUDE]

/-- Pushing the initial basis state through update_quantum_state succeeds
(its squared norm is exactly 1) and leaves the engine with a one-entry
history. -/
lemma update_quantum_state_basis0 :
    update_quantum_state (initEngine 1) (basis0 1) =
      .ok (⟨basis0 1, [basis0 1]⟩ : EngineState 1) := by
  unfold update_quantum_state
  rw [abs_vdot_self, normSqV_basis0]
  rw [if_neg (by norm_num [QUANTUM_PRECISION_TOLERANCE])]
  rw [show (initEngine 1).state_history ++ [basis0 1] = [basis0 1] from rfl]
  dsimp only
  rw [if_neg (by simp)]

lemma get_previous_state_norm_EC3 :
    get_previous_state_norm (⟨basis0 1, [basis0 1]⟩ : EngineState 1) = 1 := by
  have h : get_previous_state_norm (⟨basis0 1, [basis0 1]⟩ : EngineState 1) =
      Complex.abs (vdot (basis0 1) (basis0 1)) := rfl
  rw [h, abs_vdot_self, normSqV_basis0]

lemma noiseScale_pC3 :
    noiseScale pC3 (⟨basis0 1, [basis0 1]⟩ : EngineState 1) = -1 := by
  unfold noiseScale
  rw [get_previous_state_norm_EC3, show pC3.beta = -2 from rfl]
  norm_num

lemma assembleH_pC3 (rand : Rand) :
    assembleH 1 (⟨basis0 1, [basis0 1]⟩ : EngineState 1) rand 0 pC3
      (integral_value false 0 pC3) = 0 := by
  unfold assembleH integral_value compute_softplus_integral
  simp [pC3, intervalIntegral.integral_same, Finset.sum_range_one]

/-- C3 counterexample: a valid parameter set with beta = -2 (accepted,
since __post_init__ never constrains beta) on an engine reached from the
fresh one by a single successful state update: the previous squared norm
is 1, np.random.normal receives the negative scale 1 + (-2) * 1 = -1 and
raises, yet the assembled matrix has Frobenius norm 0, far below 1e10 —
so hamiltonian_operator raises a fatal error although the norm of the
assembled matrix does not exceed 1e10, refuting the claimed "if and only
if". -/
theorem claim_c3_counterexample :
    tpValid pC3 ∧
    update_quantum_state (initEngine 1) (basis0 1) =
      .ok (⟨basis0 1, [basis0 1]⟩ : EngineState 1) ∧
    hamiltonian_operator 1 ⟨basis0 1, [basis0 1]⟩ rand0 false 0 pC3 =
      .error "scale < 0" ∧
    ¬ frobNorm (assembleH 1 ⟨basis0 1, [basis0 1]⟩ rand0 0 pC3
        (integral_value false 0 pC3)) > MAX_HAMILTONIAN_NORM := by
  refine ⟨pC3_valid, update_quantum_state_basis0, ?_, ?_⟩
  · rw [hamiltonian_operator_eq]
    rw [if_pos (by rw [noiseScale_pC3]; norm_num)]
  · rw [assembleH_pC3, frobNorm_zero]
    norm_num [MAX_HAMILTONIAN_NORM]

/-- C3 amended: hamiltonian_operator raises a fatal error exactly when the
noise scale 1 + beta * (previous squared norm) is negative (the ValueError
raised by np.random.normal at the noise draw, reachable for valid
parameter sets with beta < -1 once the state history is nonempty) or when
the Frobenius norm of the assembled matrix exceeds 1e10; a quadrature
failure is recovered locally by substituting the integrand evaluated at
x = t for the integral value, leaving control flow and return type
unchanged. -/
theorem claim_c3_amended (n : ℕ) (E : EngineState n) (rand : Rand) (quadFail : Bool)
    (t : ℝ) (p : TradingParameters) :
    (hamiltonian_operator n E rand quadFail t p =
      (if noiseScale p E < 0 then .error "scale < 0"
        else if frobNorm (assembleH n E rand t p (integral_value quadFail t p)) >
          MAX_HAMILTONIAN_NORM then .error "Hamiltonian norm too large"
        else .ok (assembleH n E rand t p (integral_value quadFail t p)))) ∧
    integral_value true t p = softplusIntegrand p t := by
  refine ⟨hamiltonian_operator_eq n E rand quadFail t p, ?_⟩
  unfold integral_value softplusIntegrand f_function g_prime
  rw [if_pos rfl]
  norm_num

/-- C8: the matrix hamiltonian_operator returns is always the assembled
five-term sum itself; the symmetrisation inside _validate_hamiltonian only
rebinds a local and never reaches the caller. -/
theorem claim_c8 (n : ℕ) (E : EngineState n) (rand : Rand) (quadFail : Bool)
    (t : ℝ) (p : TradingParameters) (M : Matrix (Fin (2 ^ n)) (Fin (2 ^ n)) ℂ)
    (h : hamiltonian_operator n E rand quadFail t p = .ok M) :
    M = assembleH n E rand t p (integral_value quadFail t p) :=
  hamiltonian_operator_ok h

theorem claim_c8_witness :
    (0 : Matrix (Fin (2 ^ 1)) (Fin (2 ^ 1)) ℂ) =
      assembleH 1 (initEngine 1) rand0 0 pZero (integral_value false 0 pZero) :=
  claim_c8 1 (initEngine 1) rand0 false 0 pZero 0
    (hamiltonian_operator_zero (initEngine 1) rand0)

/-- C5: with sigma = 0 the noise term vanishes, so hamiltonian_operator on
one engine state is independent of the random draw and of the random noise
site: two calls with different randomness return identical results. -/
theorem claim_c5 (n : ℕ) (E : EngineState n) (quadFail : Bool) (t : ℝ)
    (p : TradingParameters) (hsig : p.sigma = 0) (rand rand2 : Rand) :
    hamiltonian_operator n E rand quadFail t p =
      hamiltonian_operator n E rand2 quadFail t p := by
  have hA : assembleH n E rand t p (integral_value quadFail t p) =
      assembleH n E rand2 t p (integral_value quadFail t p) := by
    unfold assembleH
    rw [hsig, zero_mul, zero_mul, zero_smul, zero_smul]
  rw [hamiltonian_operator_eq, hamiltonian_operator_eq, hA]

theorem claim_c5_witness :
    hamiltonian_operator 1 (initEngine 1) rand0 false 0 pZero =
      hamiltonian_operator 1 (initEngine 1) rand1 false 0 pZero :=
  claim_c5 1 (initEngine 1) false 0 pZero rfl rand0 rand1

/-- C6: after every accepted evolve step the stored state has squared norm
exactly 1 (hence within 1e-12) and the history stays capped at 1000; the
same holds for a whole evolve_state run from the freshly initialised
engine. -/
theorem claim_c6 :
    (∀ (n : ℕ) (p : TradingParameters) (rand : Rand) (qf : Bool) (dt : ℝ)
      (step : ℕ) (E E2 : EngineState n), engineInv E →
      evolve_step p rand qf dt step E = .ok E2 →
        normSqV E2.quantum_state = 1 ∧ |normSqV E2.quantum_state - 1| ≤ 1e-12 ∧
        E2.state_history.length ≤ 1000) ∧
    (∀ n : ℕ, engineInv (initEngine n)) ∧
    (∀ (n : ℕ) (p : TradingParameters) (rands : ℕ → Rand) (qf : ℕ → Bool)
      (dt : ℝ) (time_steps : ℕ) (E2 : EngineState n),
      evolve_state p rands qf dt time_steps (initEngine n) = .ok E2 →
        normSqV E2.quantum_state = 1 ∧ E2.state_history.length ≤ 1000) := by
  refine ⟨?_, initEngine_inv, ?_⟩
  · intro n p rand qf dt step E E2 hinv hs
    obtain ⟨h1, h2⟩ := evolve_step_inv hinv hs
    exact ⟨h1, by rw [h1]; norm_num, h2⟩
  · intro n p rands qf dt time_steps E2 hs
    exact evolve_loop_inv time_steps 0 (initEngine n) E2 (initEngine_inv n) hs

theorem claim_c6_witness :
    engineInv (initEngine 1) ∧
    evolve_step pZero rand0 false 1 0 (initEngine 1) =
      .ok (⟨basis0 1, [basis0 1]⟩ : EngineState 1) ∧
    normSqV ((⟨basis0 1, [basis0 1]⟩ : EngineState 1).quantum_state) = 1 ∧
    (⟨basis0 1, [basis0 1]⟩ : EngineState 1).state_history.length ≤ 1000 := by
  have hc := claim_c6.1 1 pZero rand0 false 1 0 (initEngine 1)
    ⟨basis0 1, [basis0 1]⟩ (initEngine_inv 1) evolve_step_zero_eval
  exact ⟨initEngine_inv 1, evolve_step_zero_eval, hc.1, hc.2.2⟩

/-- C7 counterexample: the parameter set of the claimed scenario, with
frequency = [0.0], is rejected by the construction-time validation (the
frequency minimum assertion fails), so it does not construct
successfully. -/
theorem claim_c7_counterexample :
    mkParams 1 [1] [0] [0] [0] [1] 0 0 0 0 0 0 0 0 0 0 0 =
      .error "parameter validation failed" := by
  unfold mkParams
  rw [if_neg]
  intro h
  obtain ⟨_, _, _, _, _, _, _, hminf, _, _⟩ := h
  have := hminf 0 (by simp)
  norm_num [MIN_PARAM_VALUE] at this

/-- C7 amended: with the frequency raised to the minimum allowed value
1e-10 (sin of frequency times 0 is still 0) the scenario goes through: the
parameters validate, H(0) is the 4 by 4 zero matrix, and the trading
signal on the initial basis state is 0. -/
theorem claim_c7_amended :
    tpValid pC7 ∧
    (∀ rand : Rand, hamiltonian_operator 2 (initEngine 2) rand false 0 pC7 = .ok 0) ∧
    calculate_trading_signal 2 (initEngine 2) = 0 := by
  refine ⟨?_, hamiltonian_operator_pC7, calculate_trading_signal_init2⟩
  refine ⟨by decide, rfl, rfl, rfl, rfl, rfl, ?_, ?_, ?_, ?_⟩
  · intro x hx
    rw [show pC7.amplitude = [1] from rfl] at hx
    simp at hx
    rw [hx]
    norm_num [MIN_PARAM_VALUE]
  · intro x hx
    rw [show pC7.frequency = [MIN_PARAM_VALUE] from rfl] at hx
    simp at hx
    rw [hx]
  · intro x hx
    rw [show pC7.decay_rate = [1] from rfl] at hx
    simp at hx
    rw [hx]
    norm_num [MIN_PARAM_VALUE]
  · rw [show pC7.sigma = 0 from rfl]
    norm_num [MAX_NOISE_AMPLITUDE]

/-- C9: for a valid parameter set the perturbation helpers always return
(the delta lands on the copy after its validation has already passed, even
when the perturbed value violates the construction invariants), and
compute_gradients therefore evaluates the loss on such invariant-violating
parameter sets without any validation error. -/
theorem claim_c9 (p : TradingParameters) (h : tpValid p) :
    (∀ (f : ArrayField) (i : ℕ) (delta : ℝ),
      perturb_param p f i delta = .ok (applyArrayPerturb p f i delta)) ∧
    (∀ (f : ScalarField) (delta : ℝ),
      perturb_scalar_param p f delta = .ok (applyScalarPerturb p f delta)) ∧
    (∀ (cfg : OptimizerConfig) (lossFn : TradingParameters → ℝ) (t : ℝ),
      ∃ g, compute_gradients cfg lossFn p t = .ok g) :=
  ⟨fun f i d => perturb_param_of_valid h f i d,
   fun f d => perturb_scalar_param_of_valid h f d,
   fun cfg lossFn t => ⟨_, compute_gradients_eq h cfg lossFn t⟩⟩

/-- C9 example: a valid parameter set whose amplitude entry sits exactly at
the allowed minimum. -/
def pMinEx : TradingParameters :=
  ⟨1, [MIN_PARAM_VALUE], [1], [0], [0], [1], 0, 0, 0, 0, 0, 0, 0, 0, 0, 0, 0⟩

lemma pMinEx_valid : tpValid pMinEx := by
  refine ⟨by decide, rfl, rfl, rfl, rfl, rfl, ?_, ?_, ?_, ?_⟩
  · intro x hx
    rw [show pMinEx.amplitude = [MIN_PARAM_VALUE] from rfl] at hx
    simp at hx
    rw [hx]
  · intro x hx
    rw [show pMinEx.frequency = [1] from rfl] at hx
    simp at hx
    rw [hx]
    norm_num [MIN_PARAM_VALUE]
  · intro x hx
    rw [show pMinEx.decay_rate = [1] from rfl] at hx
    simp at hx
    rw [hx]
    norm_num [MIN_PARAM_VALUE]
  · rw [show pMinEx.sigma = 0 from rfl]
    norm_num [MAX_NOISE_AMPLITUDE]

theorem claim_c9_witness :
    tpValid pMinEx ∧
    perturb_param pMinEx .amplitude 0 (-fd_step) =
      .ok (applyArrayPerturb pMinEx .amplitude 0 (-fd_step)) ∧
    ¬ tpValid (applyArrayPerturb pMinEx .amplitude 0 (-fd_step)) ∧
    (compute_gradients defaultConfig (fun _ => 0) pMinEx 0).toOption.isSome = true := by
  refine ⟨pMinEx_valid, (claim_c9 pMinEx pMinEx_valid).1 .amplitude 0 (-fd_step), ?_, ?_⟩
  · intro hbad
    obtain ⟨_, _, _, _, _, _, hmina, _, _, _⟩ := hbad
    have hmem : (MIN_PARAM_VALUE + -fd_step) ∈
        (applyArrayPerturb pMinEx .amplitude 0 (-fd_step)).amplitude := by
      rw [show (applyArrayPerturb pMinEx .amplitude 0 (-fd_step)).amplitude =
        [MIN_PARAM_VALUE + -fd_step] from by
          simp [applyArrayPerturb, pMinEx]]
      simp
    have := hmina _ hmem
    norm_num [MIN_PARAM_VALUE, fd_step] at this
  · obtain ⟨g, hg⟩ := (claim_c9 pMinEx pMinEx_valid).2.2 defaultConfig (fun _ => 0) 0
    rw [hg]
    rfl

/-- C10 example: an unnormalised state vector. -/
noncomputable def vBad : Fin (2 ^ 1) → ℂ := fun i => if i.val = 0 then 2 else 0

/-- C10: update_quantum_state raises exactly on the normalization check and
in that case touches nothing (the validation precedes both assignments);
on success it installs the new state and appends it to the history,
dropping the oldest entry when the cap of 1000 is passed. -/
theorem claim_c10 (n : ℕ) (E : EngineState n) (v : Fin (2 ^ n) → ℂ) :
    ((update_quantum_state E v = .error "State not normalized") ↔
      |Complex.abs (vdot v v) - 1.0| > QUANTUM_PRECISION_TOLERANCE) ∧
    (∀ E2, update_quantum_state E v = .ok E2 →
      E2.quantum_state = v ∧
      E2.state_history.getLast? = some v ∧
      E2.state_history.length = (if E.state_history.length + 1 > 1000
        then E.state_history.length else E.state_history.length + 1)) := by
  unfold update_quantum_state
  dsimp only
  by_cases hc : |Complex.abs (vdot v v) - 1.0| > QUANTUM_PRECISION_TOLERANCE
  · rw [if_pos hc]
    refine ⟨⟨fun _ => hc, fun _ => rfl⟩, ?_⟩
    intro E2 h
    exact absurd h (by simp)
  · rw [if_neg hc]
    refine ⟨⟨fun h => absurd h (by simp), fun h => absurd h hc⟩, ?_⟩
    intro E2 h
    have hE2 := (Except.ok.inj h).symm
    subst hE2
    have hlen2 : (E.state_history ++ [v]).length = E.state_history.length + 1 := by
      rw [List.length_append, List.length_singleton]
    refine ⟨rfl, ?_, ?_⟩
    · dsimp only
      by_cases hlen : (E.state_history ++ [v]).length > 1000
      · rw [if_pos hlen]
        cases hE : E.state_history with
        | nil =>
          rw [hE] at hlen
          simp at hlen
        | cons x xs =>
          show (xs ++ [v]).getLast? = some v
          exact List.getLast?_concat _
      · rw [if_neg hlen]
        exact List.getLast?_concat _
    · dsimp only
      by_cases hlen : (E.state_history ++ [v]).length > 1000
      · rw [if_pos hlen, if_pos (by omega : E.state_history.length + 1 > 1000)]
        rw [List.length_tail, hlen2]
        omega
      · rw [hlen2] at hlen
        rw [if_neg (by rw [hlen2]; omega), if_neg hlen]
        exact hlen2

lemma vBad_abs : Complex.abs (vdot vBad vBad) = 4 := by
  rw [abs_vdot_self]
  show (∑ i : Fin 2, Complex.normSq (vBad i)) = 4
  rw [Fin.sum_univ_two]
  rw [show vBad 0 = 2 from rfl, show vBad 1 = 0 from rfl]
  norm_num [Complex.normSq]

theorem claim_c10_witness :
    update_quantum_state (initEngine 1) vBad = .error "State not normalized" :=
  (claim_c10 1 (initEngine 1) vBad).1.mpr (by
    rw [vBad_abs]
    norm_num [QUANTUM_PRECISION_TOLERANCE])

/-- C1 example: a valid parameter set with zero decay amplitudes. -/
def pConstEx : TradingParameters :=
  ⟨1, [0.5], [0.5], [0], [0], [0.5], 0, 0, 0, 0, 0, 0, 5, 0, 0, 0, 0⟩

lemma pConstEx_valid : tpValid pConstEx := by
  refine ⟨by decide, rfl, rfl, rfl, rfl, rfl, ?_, ?_, ?_, ?_⟩
  · intro x hx
    rw [show pConstEx.amplitude = [0.5] from rfl] at hx
    simp at hx
    rw [hx]
    norm_num [MIN_PARAM_VALUE]
  · intro x hx
    rw [show pConstEx.frequency = [0.5] from rfl] at hx
    simp at hx
    rw [hx]
    norm_num [MIN_PARAM_VALUE]
  · intro x hx
    rw [show pConstEx.decay_rate = [0.5] from rfl] at hx
    simp at hx
    rw [hx]
    norm_num [MIN_PARAM_VALUE]
  · rw [show pConstEx.sigma = 0 from rfl]
    norm_num [MAX_NOISE_AMPLITUDE]

lemma pConstEx_decay_zero : ∀ x ∈ pConstEx.decay, x = 0 := by
  intro x hx
  rw [show pConstEx.decay = [0] from rfl] at hx
  simpa using hx

/-- C1 counterexample: a constant-loss run with convergence_patience = 1
stops with an epochs count of 2, not the 1 the claim predicts (and the
parameters are not left unchanged either, since the loss-independent
analytic gradient components keep driving updates). -/
theorem claim_c1_counterexample :
    (optimize_parameters defaultConfig (fun _ => 0) pConstEx 2 1).map
      (fun r => (r.epochs, r.convergence_reason)) = .ok (2, "patience") ∧
    (2 : ℕ) ≠ 1 := by
  obtain ⟨res, hres, he, hrs, _⟩ := optimize_parameters_const defaultConfig 0 pConstEx
    2 1 pConstEx_valid (getD_zero_of_all_zero pConstEx_decay_zero) (by norm_num)
  refine ⟨?_, by norm_num⟩
  rw [hres]
  simp [Except.map, he, hrs]

/-- C1 amended: under a constant loss function (with all decay amplitudes
zero, so that the loss-independent closed-form decay_rate gradient also
vanishes) and patience below max_epochs, the run stops with
convergence_reason patience after patience + 1 epochs — one more than the
configured patience — and it preserves exactly the validated fields
(amplitude, frequency, decay, decay_rate, sigma); the remaining parameters
are still updated by the loss-independent analytic gradient components. -/
theorem claim_c1_amended (cfg : OptimizerConfig) (c : ℝ) (p0 : TradingParameters)
    (max_epochs patience : ℕ) (hval : tpValid p0) (hdec : ∀ x ∈ p0.decay, x = 0)
    (hlt : patience < max_epochs) :
    ∃ res, optimize_parameters cfg (fun _ => c) p0 max_epochs patience = .ok res ∧
      res.convergence_reason = "patience" ∧ res.converged = true ∧
      res.epochs = patience + 1 ∧ res.final_loss = c ∧
      res.optimized_params.amplitude = p0.amplitude ∧
      res.optimized_params.frequency = p0.frequency ∧
      res.optimized_params.decay = p0.decay ∧
      res.optimized_params.decay_rate = p0.decay_rate ∧
      res.optimized_params.sigma = p0.sigma := by
  obtain ⟨res, h1, h2, h3, h4, h5, h6, h7, h8, h9, h10⟩ :=
    optimize_parameters_const cfg c p0 max_epochs patience hval
      (getD_zero_of_all_zero hdec) hlt
  exact ⟨res, h1, h3, h4, h2, h5, h6, h7, h8, h9, h10⟩

theorem claim_c1_witness :
    (optimize_parameters defaultConfig (fun _ => 1) pConstEx 4 2).map
      (fun r => (r.epochs, r.convergence_reason, r.converged)) =
      .ok (3, "patience", true) := by
  obtain ⟨res, hres, hrs, hcv, he, _⟩ := claim_c1_amended defaultConfig 1 pConstEx
    4 2 pConstEx_valid pConstEx_decay_zero (by norm_num)
  rw [hres]
  simp [Except.map, he, hrs, hcv]

end V4
